import Mathlib

/-!
# Multi-precision Newton solvers: embedding and verification

Shallow embedding of `src/newton_system.c` and `src/newton_single.c`.

* The MPFR library is consumed by the sources through an interface only. It is
  embedded as a record `Arith V` of correctly-rounded operations on a value type
  `V`, each taking the destination precision and the rounding mode; the C-level
  calls `mpfr_mul (rop, op1, op2, rnd)` are wrappers that read the precision of
  the destination variable.  The solver functions are translated statement by
  statement over an arbitrary `Arith V`.
* Two instances are given: `exactArith K` (every operation exact in a field `K`)
  and `Mpfr.arith` (binary floating point with correct rounding, signed zeros,
  infinities, NaN and the default MPFR exponent range).
-/

/-! ## The numeric interface -/

/-- Rounding modes of MPFR (the deterministic ones). -/
inductive mpfr_rnd_t
  | MPFR_RNDN
  | MPFR_RNDZ
  | MPFR_RNDU
  | MPFR_RNDD
  | MPFR_RNDA
deriving DecidableEq, Repr

open mpfr_rnd_t

/-- An MPFR variable: its precision in bits (fixed by `mpfr_init2`) and its value. -/
structure mpfr_t (V : Type) where
  prec : Nat
  val : V
deriving DecidableEq, Repr

/-- The arithmetic consumed by the solvers. Every rounding operation takes the
precision of its destination and the rounding mode. -/
structure Arith (V : Type) where
  nan : V
  set : Nat → mpfr_rnd_t → V → V
  set_ui : Nat → mpfr_rnd_t → Nat → V
  set_si : Nat → mpfr_rnd_t → Int → V
  add : Nat → mpfr_rnd_t → V → V → V
  sub : Nat → mpfr_rnd_t → V → V → V
  mul : Nat → mpfr_rnd_t → V → V → V
  div : Nat → mpfr_rnd_t → V → V → V
  sub_ui : Nat → mpfr_rnd_t → V → Nat → V
  mul_ui : Nat → mpfr_rnd_t → V → Nat → V
  sqrt : Nat → mpfr_rnd_t → V → V
  neg : Nat → mpfr_rnd_t → V → V
  abs : Nat → mpfr_rnd_t → V → V
  cmp : V → V → Int
  cmp_ui : V → Nat → Int
  zero_p : V → Bool

section Wrappers

variable {V : Type} (A : Arith V)

/-- Wrapper `mpfr_get_prec (x)`. -/
def mpfr_get_prec (x : mpfr_t V) : Nat := x.prec

/-- Wrapper `mpfr_init2 (x, prec)`: a fresh variable, whose value is NaN. -/
def mpfr_init2 (prec : Nat) : mpfr_t V := ⟨prec, A.nan⟩

/-- Wrapper `mpfr_set (rop, op, rnd)`. -/
def mpfr_set (rop op : mpfr_t V) (rnd : mpfr_rnd_t) : mpfr_t V :=
  ⟨rop.prec, A.set rop.prec rnd op.val⟩

/-- Wrapper `mpfr_set_ui (rop, u, rnd)`. -/
def mpfr_set_ui (rop : mpfr_t V) (u : Nat) (rnd : mpfr_rnd_t) : mpfr_t V :=
  ⟨rop.prec, A.set_ui rop.prec rnd u⟩

/-- Wrapper `mpfr_set_si (rop, i, rnd)`. -/
def mpfr_set_si (rop : mpfr_t V) (i : Int) (rnd : mpfr_rnd_t) : mpfr_t V :=
  ⟨rop.prec, A.set_si rop.prec rnd i⟩

/-- Wrapper `mpfr_add (rop, op1, op2, rnd)`. -/
def mpfr_add (rop op1 op2 : mpfr_t V) (rnd : mpfr_rnd_t) : mpfr_t V :=
  ⟨rop.prec, A.add rop.prec rnd op1.val op2.val⟩

/-- Wrapper `mpfr_sub (rop, op1, op2, rnd)`. -/
def mpfr_sub (rop op1 op2 : mpfr_t V) (rnd : mpfr_rnd_t) : mpfr_t V :=
  ⟨rop.prec, A.sub rop.prec rnd op1.val op2.val⟩

/-- Wrapper `mpfr_mul (rop, op1, op2, rnd)`. -/
def mpfr_mul (rop op1 op2 : mpfr_t V) (rnd : mpfr_rnd_t) : mpfr_t V :=
  ⟨rop.prec, A.mul rop.prec rnd op1.val op2.val⟩

/-- Wrapper `mpfr_div (rop, op1, op2, rnd)`. -/
def mpfr_div (rop op1 op2 : mpfr_t V) (rnd : mpfr_rnd_t) : mpfr_t V :=
  ⟨rop.prec, A.div rop.prec rnd op1.val op2.val⟩

/-- Wrapper `mpfr_sub_ui (rop, op1, u, rnd)`. -/
def mpfr_sub_ui (rop op1 : mpfr_t V) (u : Nat) (rnd : mpfr_rnd_t) : mpfr_t V :=
  ⟨rop.prec, A.sub_ui rop.prec rnd op1.val u⟩

/-- Wrapper `mpfr_mul_ui (rop, op1, u, rnd)`. -/
def mpfr_mul_ui (rop op1 : mpfr_t V) (u : Nat) (rnd : mpfr_rnd_t) : mpfr_t V :=
  ⟨rop.prec, A.mul_ui rop.prec rnd op1.val u⟩

/-- Wrapper `mpfr_sqrt (rop, op, rnd)`. -/
def mpfr_sqrt (rop op : mpfr_t V) (rnd : mpfr_rnd_t) : mpfr_t V :=
  ⟨rop.prec, A.sqrt rop.prec rnd op.val⟩

/-- Wrapper `mpfr_neg (rop, op, rnd)`. -/
def mpfr_neg (rop op : mpfr_t V) (rnd : mpfr_rnd_t) : mpfr_t V :=
  ⟨rop.prec, A.neg rop.prec rnd op.val⟩

/-- Wrapper `mpfr_abs (rop, op, rnd)`. -/
def mpfr_abs (rop op : mpfr_t V) (rnd : mpfr_rnd_t) : mpfr_t V :=
  ⟨rop.prec, A.abs rop.prec rnd op.val⟩

/-- Wrapper `mpfr_cmp (op1, op2)`: negative, zero or positive. -/
def mpfr_cmp (op1 op2 : mpfr_t V) : Int := A.cmp op1.val op2.val

/-- Wrapper `mpfr_cmp_ui (op1, u)`. -/
def mpfr_cmp_ui (op1 : mpfr_t V) (u : Nat) : Int := A.cmp_ui op1.val u

/-- Wrapper `mpfr_zero_p (op)`. -/
def mpfr_zero_p (op : mpfr_t V) : Bool := A.zero_p op.val

end Wrappers

/-- Copying between variables of equal precision is exact: what `set` or `add`
produced at a precision `p` is left unchanged by `set` at precision `p`. -/
structure ExactCopy {V : Type} (A : Arith V) : Prop where
  set_set : ∀ p r r1 a, 0 < p → A.set p r (A.set p r1 a) = A.set p r1 a
  set_add : ∀ p r r1 a b, 0 < p → A.set p r (A.add p r1 a b) = A.add p r1 a b

/-! ## Exact arithmetic -/

/-- Every operation taken as exact in a field `K` (no rounding); the square root
and the order are supplied by the caller. -/
def exactArith (K : Type) [Field K] [DecidableEq K] (sqrt : K → K) (abs : K → K)
    (cmp : K → K → Int) : Arith K where
  nan := 0
  set := fun _ _ a => a
  set_ui := fun _ _ u => (u : K)
  set_si := fun _ _ i => (i : K)
  add := fun _ _ a b => a + b
  sub := fun _ _ a b => a - b
  mul := fun _ _ a b => a * b
  div := fun _ _ a b => a / b
  sub_ui := fun _ _ a u => a - (u : K)
  mul_ui := fun _ _ a u => a * (u : K)
  sqrt := fun _ _ a => sqrt a
  neg := fun _ _ a => -a
  abs := fun _ _ a => abs a
  cmp := cmp
  cmp_ui := fun a u => cmp a (u : K)
  zero_p := fun a => decide (a = 0)

/-! ## Binary floating point with correct rounding -/

namespace Mpfr

/-- Values of an MPFR number: NaN, signed infinities, signed zeros, and
`fin neg m e` standing for `(-1)^neg * m * 2^e` with `m > 0`. A value stored at
precision `p` has `2^(p-1) ≤ m < 2^p`. -/
inductive Val
  | nan
  | inf (neg : Bool)
  | zero (neg : Bool)
  | fin (neg : Bool) (m : Nat) (e : Int)
deriving DecidableEq, Repr

/-- Default smallest exponent of MPFR, `1 - 2^30`. -/
def emin : Int := -1073741823

/-- Default largest exponent of MPFR, `2^30 - 1`. -/
def emax : Int := 1073741823

/-- Least `j` at or above the given one with `m < 2^(2^j)`, found in `fuel` steps. -/
def log2Top : Nat → Nat → Nat → Nat
  | 0, _, j => j
  | fuel + 1, m, j => if m < 2 ^ (2 ^ j) then j else log2Top fuel m (j + 1)

/-- Binary search for `⌊log2 m⌋`: with `2^acc ≤ m < 2^(acc + 2^j)`, the exponent
`r` with `2^r ≤ m < 2^(r+1)`. -/
def log2Bits (m : Nat) : Nat → Nat → Nat
  | 0, acc => acc
  | j + 1, acc =>
    if 2 ^ (acc + 2 ^ j) ≤ m then log2Bits m j (acc + 2 ^ j) else log2Bits m j acc

/-- Number of bits of `m`: the least `l` with `m < 2^l`. -/
def bitlen (m : Nat) : Nat :=
  if m = 0 then 0 else log2Bits m (log2Top m m 0) 0 + 1

/-- Whether the truncated significand `q` is incremented. `rem` is the part cut
off, `half` one half unit of `q`, `sticky` tells that the exact value lies
strictly above what `q` and `rem` hold. -/
def roundUp (rnd : mpfr_rnd_t) (neg : Bool) (q rem half : Nat) (sticky : Bool) : Bool :=
  match rnd with
  | MPFR_RNDN => decide (half < rem) || (decide (rem = half) && (sticky || decide (q % 2 = 1)))
  | MPFR_RNDZ => false
  | MPFR_RNDU => !neg && (decide (rem ≠ 0) || sticky)
  | MPFR_RNDD => neg && (decide (rem ≠ 0) || sticky)
  | MPFR_RNDA => decide (rem ≠ 0) || sticky

/-- Result of an overflow: infinity, or the largest finite number when the
rounding direction points toward zero. -/
def overflow (p : Nat) (rnd : mpfr_rnd_t) (neg : Bool) : Val :=
  let big := Val.fin neg (2 ^ p - 1) (emax - p)
  match rnd with
  | MPFR_RNDN => Val.inf neg
  | MPFR_RNDA => Val.inf neg
  | MPFR_RNDZ => big
  | MPFR_RNDU => if neg then big else Val.inf neg
  | MPFR_RNDD => if neg then Val.inf neg else big

/-- Result of an underflow: zero or the smallest positive number `2^(emin-1)`;
`small` tells that the exact value is at most half of the latter. -/
def underflow (p : Nat) (rnd : mpfr_rnd_t) (neg : Bool) (small : Bool) : Val :=
  let tiny := Val.fin neg (2 ^ (p - 1)) (emin - p)
  match rnd with
  | MPFR_RNDN => if small then Val.zero neg else tiny
  | MPFR_RNDA => tiny
  | MPFR_RNDZ => Val.zero neg
  | MPFR_RNDU => if neg then Val.zero neg else tiny
  | MPFR_RNDD => if neg then tiny else Val.zero neg

/-- A rounded significand `m` of `p` bits with exponent `e`, checked against the
exponent range. -/
def checkRange (p : Nat) (rnd : mpfr_rnd_t) (neg : Bool) (m : Nat) (e : Int)
    (small : Bool) : Val :=
  if emax < e + p then overflow p rnd neg
  else if e + p < emin then underflow p rnd neg small
  else Val.fin neg m e

/-- Correct rounding to `p` bits of the number `(-1)^neg * (m + t) * 2^e`, where
`t = 0` when `sticky` is false and `0 < t < 1` otherwise (then `m` has at least
`p + 2` bits). A significand `m = 0` stands for zero. -/
def round (p : Nat) (rnd : mpfr_rnd_t) (neg : Bool) (m : Nat) (e : Int)
    (sticky : Bool) : Val :=
  if m = 0 then Val.zero neg
  else
    let l := bitlen m
    let small : Bool := decide (e + l - 1 < emin - 2) ||
      (decide (e + l - 1 = emin - 2) && decide (m = 2 ^ (l - 1)) && !sticky)
    if l ≤ p then
      checkRange p rnd neg (m <<< (p - l)) (e - ((p - l : Nat) : Int)) small
    else
      let k := l - p
      let q := m >>> k
      let up := roundUp rnd neg q (m % 2 ^ k) (2 ^ (k - 1)) sticky
      let q1 := if up then q + 1 else q
      if q1 = 2 ^ p then checkRange p rnd neg (2 ^ (p - 1)) (e + k + 1) small
      else checkRange p rnd neg q1 (e + k) small

/-- Sign flip without rounding. -/
def Val.negate : Val → Val
  | Val.nan => Val.nan
  | Val.inf s => Val.inf (!s)
  | Val.zero s => Val.zero (!s)
  | Val.fin s m e => Val.fin (!s) m e

/-- The value of `mpfr_set`. -/
def set (p : Nat) (rnd : mpfr_rnd_t) : Val → Val
  | Val.fin s m e => round p rnd s m e false
  | v => v

/-- The value of `mpfr_neg`. -/
def neg (p : Nat) (rnd : mpfr_rnd_t) (a : Val) : Val := set p rnd a.negate

/-- The value of `mpfr_abs`. -/
def abs (p : Nat) (rnd : mpfr_rnd_t) : Val → Val
  | Val.nan => Val.nan
  | Val.inf _ => Val.inf false
  | Val.zero _ => Val.zero false
  | Val.fin _ m e => round p rnd false m e false

/-- The exact value of an unsigned machine integer. -/
def ofNat (u : Nat) : Val := if u = 0 then Val.zero false else Val.fin false u 0

/-- The value of `mpfr_set_ui`. -/
def set_ui (p : Nat) (rnd : mpfr_rnd_t) (u : Nat) : Val := set p rnd (ofNat u)

/-- The value of `mpfr_set_si`. -/
def set_si (p : Nat) (rnd : mpfr_rnd_t) (i : Int) : Val :=
  if i = 0 then Val.zero false else round p rnd (decide (i < 0)) i.natAbs 0 false

/-- The value of `mpfr_add`. -/
def add (p : Nat) (rnd : mpfr_rnd_t) : Val → Val → Val
  | Val.nan, _ => Val.nan
  | _, Val.nan => Val.nan
  | Val.inf s, Val.inf t => if s = t then Val.inf s else Val.nan
  | Val.inf s, _ => Val.inf s
  | _, Val.inf t => Val.inf t
  | Val.zero s, Val.zero t => if s = t then Val.zero s else Val.zero (decide (rnd = MPFR_RNDD))
  | Val.zero _, Val.fin t n g => round p rnd t n g false
  | Val.fin s m e, Val.zero _ => round p rnd s m e false
  | Val.fin s m e, Val.fin t n g =>
    let e0 := min e g
    let a := m <<< (e - e0).toNat
    let b := n <<< (g - e0).toNat
    if s = t then round p rnd s (a + b) e0 false
    else if a = b then Val.zero (decide (rnd = MPFR_RNDD))
    else if b < a then round p rnd s (a - b) e0 false
    else round p rnd t (b - a) e0 false

/-- The value of `mpfr_sub`. -/
def sub (p : Nat) (rnd : mpfr_rnd_t) (a b : Val) : Val := add p rnd a b.negate

/-- The value of `mpfr_mul`. -/
def mul (p : Nat) (rnd : mpfr_rnd_t) : Val → Val → Val
  | Val.nan, _ => Val.nan
  | _, Val.nan => Val.nan
  | Val.inf _, Val.zero _ => Val.nan
  | Val.zero _, Val.inf _ => Val.nan
  | Val.inf s, Val.inf t => Val.inf (xor s t)
  | Val.inf s, Val.fin t _ _ => Val.inf (xor s t)
  | Val.fin s _ _, Val.inf t => Val.inf (xor s t)
  | Val.zero s, Val.zero t => Val.zero (xor s t)
  | Val.zero s, Val.fin t _ _ => Val.zero (xor s t)
  | Val.fin s _ _, Val.zero t => Val.zero (xor s t)
  | Val.fin s m e, Val.fin t n g => round p rnd (xor s t) (m * n) (e + g) false

/-- The value of `mpfr_div`. -/
def div (p : Nat) (rnd : mpfr_rnd_t) : Val → Val → Val
  | Val.nan, _ => Val.nan
  | _, Val.nan => Val.nan
  | Val.inf _, Val.inf _ => Val.nan
  | Val.zero _, Val.zero _ => Val.nan
  | Val.inf s, Val.zero t => Val.inf (xor s t)
  | Val.inf s, Val.fin t _ _ => Val.inf (xor s t)
  | Val.zero s, Val.inf t => Val.zero (xor s t)
  | Val.zero s, Val.fin t _ _ => Val.zero (xor s t)
  | Val.fin s _ _, Val.zero t => Val.inf (xor s t)
  | Val.fin s _ _, Val.inf t => Val.zero (xor s t)
  | Val.fin s m e, Val.fin t n g =>
    let sh := (p + 2 + bitlen n) - bitlen m
    let a := m <<< sh
    round p rnd (xor s t) (a / n) (e - (sh : Int) - g) (decide (a % n ≠ 0))

/-- Integer square root, one bit at a time: the largest `r + d` with
`d < 2^k` and `(r + d)^2 ≤ n`, provided `r^2 ≤ n`. -/
def isqrtBits (n : Nat) : Nat → Nat → Nat
  | 0, r => r
  | k + 1, r => if (r + 2 ^ k) * (r + 2 ^ k) ≤ n then isqrtBits n k (r + 2 ^ k)
                else isqrtBits n k r

/-- Integer square root `⌊√n⌋`. -/
def isqrt (n : Nat) : Nat := isqrtBits n (bitlen n / 2 + 1) 0

/-- The value of `mpfr_sqrt`. -/
def sqrt (p : Nat) (rnd : mpfr_rnd_t) : Val → Val
  | Val.nan => Val.nan
  | Val.inf s => if s then Val.nan else Val.inf false
  | Val.zero s => Val.zero s
  | Val.fin s m e =>
    if s then Val.nan
    else
      let sh0 := (2 * p + 4) - bitlen m
      let sh := if (e - (sh0 : Int)) % 2 = 0 then sh0 else sh0 + 1
      let a := m <<< sh
      let q := isqrt a
      round p rnd false q ((e - (sh : Int)) / 2) (decide (q * q ≠ a))

/-- The value of `mpfr_mul_ui`. -/
def mul_ui (p : Nat) (rnd : mpfr_rnd_t) (a : Val) (u : Nat) : Val := mul p rnd a (ofNat u)

/-- The value of `mpfr_sub_ui`. -/
def sub_ui (p : Nat) (rnd : mpfr_rnd_t) (a : Val) (u : Nat) : Val :=
  if u = 0 then set p rnd a else sub p rnd a (ofNat u)

/-- Sign of `a - b` for two numbers `(-1)^s * m * 2^e`. -/
def cmpFin (s : Bool) (m : Nat) (e : Int) (t : Bool) (n : Nat) (g : Int) : Int :=
  let e0 := min e g
  let a : Int := if s then -((m <<< (e - e0).toNat : Nat) : Int) else ((m <<< (e - e0).toNat : Nat) : Int)
  let b : Int := if t then -((n <<< (g - e0).toNat : Nat) : Int) else ((n <<< (g - e0).toNat : Nat) : Int)
  if a < b then -1 else if b < a then 1 else 0

/-- The result of `mpfr_cmp`: `0` when an operand is NaN. -/
def cmp : Val → Val → Int
  | Val.nan, _ => 0
  | _, Val.nan => 0
  | Val.inf s, Val.inf t => if s = t then 0 else if s then -1 else 1
  | Val.inf s, _ => if s then -1 else 1
  | _, Val.inf t => if t then 1 else -1
  | Val.zero _, Val.zero _ => 0
  | Val.zero _, Val.fin t _ _ => if t then 1 else -1
  | Val.fin s _ _, Val.zero _ => if s then -1 else 1
  | Val.fin s m e, Val.fin t n g => cmpFin s m e t n g

/-- The result of `mpfr_zero_p`. -/
def zero_p : Val → Bool
  | Val.zero _ => true
  | _ => false

/-- The correctly rounded quotient `num / den` of two integers: the value that
`mpfr_set_str` writes for a decimal literal equal to `num / den`. -/
def set_quot (p : Nat) (rnd : mpfr_rnd_t) (num den : Nat) : Val :=
  div p rnd (ofNat num) (ofNat den)

/-- The rational number a finite value stands for. -/
def Val.toRat? : Val → Option ℚ
  | Val.zero _ => some 0
  | Val.fin s m e => some ((if s then -1 else 1) * (m : ℚ) * (2 : ℚ) ^ e)
  | _ => none

/-- A value as a variable of precision `p` stores it: a significand of exactly
`p` bits and an exponent within the range. -/
def Stored (p : Nat) : Val → Prop
  | Val.fin _ m e => bitlen m = p ∧ emin ≤ e + p ∧ e + p ≤ emax
  | _ => True

/-- A value that is not negative: NaN, plus infinity, a zero of either sign or a
positive number. -/
def NonNeg : Val → Prop
  | Val.inf s => s = false
  | Val.fin s _ _ => s = false
  | _ => True

/-- A value that is not positive (`v ≤ 0`): a zero of either sign, a negative
number or minus infinity. NaN is not such a value. -/
def NonPositive : Val → Prop
  | Val.nan => False
  | Val.inf s => s = true
  | Val.zero _ => True
  | Val.fin s _ _ => s = true

/-- The MPFR arithmetic. -/
def arith : Arith Val where
  nan := Val.nan
  set := set
  set_ui := set_ui
  set_si := set_si
  add := add
  sub := sub
  mul := mul
  div := div
  sub_ui := sub_ui
  mul_ui := mul_ui
  sqrt := sqrt
  neg := neg
  abs := abs
  cmp := cmp
  cmp_ui := fun a u => cmp a (ofNat u)
  zero_p := zero_p

end Mpfr

/-! ## `newton_system.c` -/

namespace NewtonSystem

variable {V : Type} (A : Arith V)

/-- The constant `MAX_ITER`, defined as 100. -/
def MAX_ITER : Nat := 100

/-- A vector `mpfr_t v[N]` with `N = 2`. -/
abbrev Vec (V : Type) := mpfr_t V × mpfr_t V

/-- A matrix `mpfr_t J[N][N]` with `N = 2`, row by row. -/
abbrev Mat (V : Type) := (mpfr_t V × mpfr_t V) × (mpfr_t V × mpfr_t V)

/-- The function `system_f (f, x, rnd)`: the residual `f1 = x^2 + y^2 - 4`, `f2 = x^2 - y - 1`,
written into `f`. -/
def system_f (f : Vec V) (x : Vec V) (rnd : mpfr_rnd_t) : Vec V :=
  let precision := mpfr_get_prec x.1
  let x2 : mpfr_t V := mpfr_init2 A precision
  let y2 : mpfr_t V := mpfr_init2 A precision
  let x2 := mpfr_mul A x2 x.1 x.1 rnd
  let y2 := mpfr_mul A y2 x.2 x.2 rnd
  let f0 := mpfr_add A f.1 x2 y2 rnd
  let f0 := mpfr_sub_ui A f0 f0 4 rnd
  let f1 := mpfr_sub A f.2 x2 x.2 rnd
  let f1 := mpfr_sub_ui A f1 f1 1 rnd
  (f0, f1)

/-- The function `jacobian (J, x, rnd)`: the matrix `[2x 2y; 2x -1]` written into `J`. -/
def jacobian (J : Mat V) (x : Vec V) (rnd : mpfr_rnd_t) : Mat V :=
  let J00 := mpfr_mul_ui A J.1.1 x.1 2 rnd
  let J01 := mpfr_mul_ui A J.1.2 x.2 2 rnd
  let J10 := mpfr_mul_ui A J.2.1 x.1 2 rnd
  let J11 := mpfr_set_si A J.2.2 (-1) rnd
  ((J00, J01), (J10, J11))

/-- The determinant computed at the head of `solve_linear_system_2x2`
(lines 56 to 67): `det = J00*J11 - J01*J10`, every operation rounded. -/
def determinant (J : Mat V) (f : Vec V) (rnd : mpfr_rnd_t) : mpfr_t V :=
  let precision := mpfr_get_prec f.1
  let det : mpfr_t V := mpfr_init2 A precision
  let temp1 : mpfr_t V := mpfr_init2 A precision
  let temp2 : mpfr_t V := mpfr_init2 A precision
  let temp1 := mpfr_mul A temp1 J.1.1 J.2.2 rnd
  let temp2 := mpfr_mul A temp2 J.1.2 J.2.1 rnd
  mpfr_sub A det temp1 temp2 rnd

/-- The function `solve_linear_system_2x2 (delta, J, f, rnd)`: the return value and `delta`
as the call leaves it. -/
def solve_linear_system_2x2 (delta : Vec V) (J : Mat V) (f : Vec V) (rnd : mpfr_rnd_t) :
    Int × Vec V :=
  let precision := mpfr_get_prec f.1
  let temp1 : mpfr_t V := mpfr_init2 A precision
  let temp2 : mpfr_t V := mpfr_init2 A precision
  let neg_f0 : mpfr_t V := mpfr_init2 A precision
  let neg_f1 : mpfr_t V := mpfr_init2 A precision
  let det := determinant A J f rnd
  if mpfr_zero_p A det then (0, delta)
  else
    let neg_f0 := mpfr_neg A neg_f0 f.1 rnd
    let neg_f1 := mpfr_neg A neg_f1 f.2 rnd
    let temp1 := mpfr_mul A temp1 neg_f0 J.2.2 rnd
    let temp2 := mpfr_mul A temp2 neg_f1 J.1.2 rnd
    let temp1 := mpfr_sub A temp1 temp1 temp2 rnd
    let delta0 := mpfr_div A delta.1 temp1 det rnd
    let temp1 := mpfr_mul A temp1 J.1.1 neg_f1 rnd
    let temp2 := mpfr_mul A temp2 J.2.1 neg_f0 rnd
    let temp1 := mpfr_sub A temp1 temp1 temp2 rnd
    let delta1 := mpfr_div A delta.2 temp1 det rnd
    (1, (delta0, delta1))

/-- The local variables of `newton_method_system` together with the output `x`. -/
structure Locals (V : Type) where
  x : Vec V
  f : Vec V
  J : Mat V
  delta : Vec V
  norm : mpfr_t V
  temp : mpfr_t V
deriving DecidableEq, Repr

/-- Lines 124 to 129: the Euclidean norm of `f`, accumulated in `norm` through
`temp`, every operation rounded. Returns `norm` and `temp`. -/
def residual_norm (norm temp : mpfr_t V) (f : Vec V) (rnd : mpfr_rnd_t) :
    mpfr_t V × mpfr_t V :=
  let norm := mpfr_set_ui A norm 0 rnd
  let temp := mpfr_mul A temp f.1 f.1 rnd
  let norm := mpfr_add A norm norm temp rnd
  let temp := mpfr_mul A temp f.2 f.2 rnd
  let norm := mpfr_add A norm norm temp rnd
  let norm := mpfr_sqrt A norm norm rnd
  (norm, temp)

/-- How the body of the loop leaves: by one of its two `return` statements, or by
reaching the end of the body. -/
inductive Step (V : Type)
  | ret (code : Int) (s : Locals V)
  | next (s : Locals V)
deriving DecidableEq, Repr

/-- One pass through the body of the `for` loop (lines 120 to 175). -/
def body (tolerance : mpfr_t V) (rnd : mpfr_rnd_t) (s : Locals V) : Step V :=
  let f := system_f A s.f s.x rnd
  let nt := residual_norm A s.norm s.temp f rnd
  let norm := nt.1
  let temp := nt.2
  if mpfr_cmp A norm tolerance < 0 then
    Step.ret 1 { s with f := f, norm := norm, temp := temp }
  else
    let J := jacobian A s.J s.x rnd
    let r := solve_linear_system_2x2 A s.delta J f rnd
    if r.1 = 0 then
      Step.ret 0 { s with f := f, norm := norm, temp := temp, J := J, delta := r.2 }
    else
      let delta := r.2
      let x0 := mpfr_add A s.x.1 s.x.1 delta.1 rnd
      let x1 := mpfr_add A s.x.2 s.x.2 delta.2 rnd
      Step.next { x := (x0, x1), f := f, J := J, delta := delta, norm := norm, temp := temp }

/-- The `for` loop with `n` iterations left, followed by the `return 0` after it. -/
def loop (tolerance : mpfr_t V) (rnd : mpfr_rnd_t) : Nat → Locals V → Int × Locals V
  | 0, s => (0, s)
  | n + 1, s =>
    match body A tolerance rnd s with
    | Step.ret code t => (code, t)
    | Step.next t => loop tolerance rnd n t

/-- The locals at the head of the pass numbered `k` (counting from `0`), when
every earlier pass reached the end of the body; `none` when an earlier pass
returned. -/
def iterates (tolerance : mpfr_t V) (rnd : mpfr_rnd_t) : Nat → Locals V → Option (Locals V)
  | 0, s => some s
  | k + 1, s =>
    match body A tolerance rnd s with
    | Step.ret _ _ => none
    | Step.next t => iterates tolerance rnd k t

/-- Lines 101 to 114: the locals after initialisation, `x` holding the initial
guess rounded to the precision of `x`. -/
def init (x : Vec V) (initial_guess : Vec V) (rnd : mpfr_rnd_t) : Locals V :=
  let precision := mpfr_get_prec x.1
  { x := (mpfr_set A x.1 initial_guess.1 rnd, mpfr_set A x.2 initial_guess.2 rnd)
    f := (mpfr_init2 A precision, mpfr_init2 A precision)
    J := ((mpfr_init2 A precision, mpfr_init2 A precision),
          (mpfr_init2 A precision, mpfr_init2 A precision))
    delta := (mpfr_init2 A precision, mpfr_init2 A precision)
    norm := mpfr_init2 A precision
    temp := mpfr_init2 A precision }

/-- The run of `newton_method_system`: return value and all variables at the
`return`. -/
def run (x : Vec V) (initial_guess : Vec V) (tolerance : mpfr_t V) (rnd : mpfr_rnd_t) :
    Int × Locals V :=
  loop A tolerance rnd MAX_ITER (init A x initial_guess rnd)

/-- The function `newton_method_system (x, initial_guess, tolerance, rnd)`: the return value
and `x` as the call leaves it. -/
def newton_method_system (x : Vec V) (initial_guess : Vec V) (tolerance : mpfr_t V)
    (rnd : mpfr_rnd_t) : Int × Vec V :=
  let r := run A x initial_guess tolerance rnd
  (r.1, r.2.x)

/-- The residual of a point evaluated by `system_f` into fresh variables of
precision `p`, as `main` does with `f_verify` (lines 229 to 234). -/
def residual_at (p : Nat) (x : Vec V) (rnd : mpfr_rnd_t) : Vec V :=
  system_f A (mpfr_init2 A p, mpfr_init2 A p) x rnd

/-- The norm of the residual of a point, everything evaluated in fresh variables
of precision `p`. -/
def residual_norm_at (p : Nat) (x : Vec V) (rnd : mpfr_rnd_t) : mpfr_t V :=
  (residual_norm A (mpfr_init2 A p) (mpfr_init2 A p) (residual_at A p x rnd) rnd).1

/-- The determinant of the Jacobian at a point, everything evaluated in fresh
variables of precision `p`. -/
def det_at (p : Nat) (x : Vec V) (rnd : mpfr_rnd_t) : mpfr_t V :=
  determinant A
    (jacobian A ((mpfr_init2 A p, mpfr_init2 A p), (mpfr_init2 A p, mpfr_init2 A p)) x rnd)
    (residual_at A p x rnd) rnd

/-- The run ends at the `return 0` of line 169: some pass is reached whose
iterate has a residual norm not below the tolerance and a Jacobian of
determinant zero. -/
def EndsSingular (x : Vec V) (initial_guess : Vec V) (tolerance : mpfr_t V)
    (rnd : mpfr_rnd_t) : Prop :=
  ∃ k s, k < MAX_ITER ∧ iterates A tolerance rnd k (init A x initial_guess rnd) = some s ∧
    ¬ (mpfr_cmp A (residual_norm_at A (mpfr_get_prec x.1) s.x rnd) tolerance < 0) ∧
    mpfr_zero_p A (det_at A (mpfr_get_prec x.1) s.x rnd) = true

/-- The run ends at the `return 0` of line 190: each of the `MAX_ITER` passes
reaches the end of the body. -/
def EndsExhausted (x : Vec V) (initial_guess : Vec V) (tolerance : mpfr_t V)
    (rnd : mpfr_rnd_t) : Prop :=
  ∃ s, iterates A tolerance rnd MAX_ITER (init A x initial_guess rnd) = some s

/-- The precisions of the variables during a run: `x[0]` has precision `p0`,
`x[1]` has precision `p1`, and `f`, `J`, `norm`, `temp`, initialised with the
precision of `x[0]`, have precision `p0`. -/
def Inv (p0 p1 : Nat) (s : Locals V) : Prop :=
  s.x.1.prec = p0 ∧ s.x.2.prec = p1 ∧ s.f.1.prec = p0 ∧ s.f.2.prec = p0 ∧
  s.norm.prec = p0 ∧ s.temp.prec = p0 ∧
  s.J.1.1.prec = p0 ∧ s.J.1.2.prec = p0 ∧ s.J.2.1.prec = p0 ∧ s.J.2.2.prec = p0

/-- Both coordinates of `x` are left unchanged by a copy at their own precision. -/
def Settled (x : Vec V) : Prop :=
  (∀ r, A.set x.1.prec r x.1.val = x.1.val) ∧ (∀ r, A.set x.2.prec r x.2.val = x.2.val)

end NewtonSystem

/-! ## `newton_single.c` -/

namespace NewtonSingle

variable {V : Type} (A : Arith V)

/-- The constant `MAX_ITER`, defined as 100. -/
def MAX_ITER : Nat := 100

/-- The function `function_f (result, x, rnd)`: `f(x) = x^3 - 2*x - 5` written into `result`. -/
def function_f (result x : mpfr_t V) (rnd : mpfr_rnd_t) : mpfr_t V :=
  let x2 : mpfr_t V := mpfr_init2 A (mpfr_get_prec x)
  let x3 : mpfr_t V := mpfr_init2 A (mpfr_get_prec x)
  let temp : mpfr_t V := mpfr_init2 A (mpfr_get_prec x)
  let x2 := mpfr_mul A x2 x x rnd
  let x3 := mpfr_mul A x3 x2 x rnd
  let temp := mpfr_mul_ui A temp x 2 rnd
  let result := mpfr_sub A result x3 temp rnd
  mpfr_sub_ui A result result 5 rnd

/-- The function `function_df (result, x, rnd)`: the derivative `3*x^2 - 2` written into `result`. -/
def function_df (result x : mpfr_t V) (rnd : mpfr_rnd_t) : mpfr_t V :=
  let x2 : mpfr_t V := mpfr_init2 A (mpfr_get_prec x)
  let x2 := mpfr_mul A x2 x x rnd
  let result := mpfr_mul_ui A result x2 3 rnd
  mpfr_sub_ui A result result 2 rnd

/-- The local variables of `newton_method_single` together with the output `root`. -/
structure Locals (V : Type) where
  root : mpfr_t V
  x_current : mpfr_t V
  x_next : mpfr_t V
  f_val : mpfr_t V
  df_val : mpfr_t V
  abs_diff : mpfr_t V
deriving DecidableEq, Repr

/-- How the body of the loop leaves: by one of its two `return` statements, or by
reaching the end of the body. -/
inductive Step (V : Type)
  | ret (code : Int) (s : Locals V)
  | next (s : Locals V)
deriving DecidableEq, Repr

/-- One pass through the body of the `for` loop (lines 61 to 100). -/
def body (tolerance : mpfr_t V) (rnd : mpfr_rnd_t) (s : Locals V) : Step V :=
  let f_val := function_f A s.f_val s.x_current rnd
  let abs_diff := mpfr_abs A s.abs_diff f_val rnd
  if mpfr_cmp A abs_diff tolerance < 0 then
    let root := mpfr_set A s.root s.x_current rnd
    Step.ret 1 { s with root := root, f_val := f_val, abs_diff := abs_diff }
  else
    let df_val := function_df A s.df_val s.x_current rnd
    let abs_diff := mpfr_abs A abs_diff df_val rnd
    if mpfr_cmp_ui A abs_diff 0 = 0 then
      Step.ret 0 { s with f_val := f_val, df_val := df_val, abs_diff := abs_diff }
    else
      let abs_diff := mpfr_div A abs_diff f_val df_val rnd
      let x_next := mpfr_sub A s.x_next s.x_current abs_diff rnd
      let x_current := mpfr_set A s.x_current x_next rnd
      Step.next { s with x_current := x_current, x_next := x_next, f_val := f_val,
                         df_val := df_val, abs_diff := abs_diff }

/-- The `for` loop with `n` iterations left, followed by the `return 0` after it. -/
def loop (tolerance : mpfr_t V) (rnd : mpfr_rnd_t) : Nat → Locals V → Int × Locals V
  | 0, s => (0, s)
  | n + 1, s =>
    match body A tolerance rnd s with
    | Step.ret code t => (code, t)
    | Step.next t => loop tolerance rnd n t

/-- Lines 46 to 55: the locals after initialisation. -/
def init (root : mpfr_t V) (initial_guess : mpfr_t V) (rnd : mpfr_rnd_t) : Locals V :=
  let precision := mpfr_get_prec root
  let x_current : mpfr_t V := mpfr_init2 A precision
  { root := root
    x_current := mpfr_set A x_current initial_guess rnd
    x_next := mpfr_init2 A precision
    f_val := mpfr_init2 A precision
    df_val := mpfr_init2 A precision
    abs_diff := mpfr_init2 A precision }

/-- The function `newton_method_single (root, initial_guess, tolerance, rnd)`: the return value
and `root` as the call leaves it. -/
def newton_method_single (root : mpfr_t V) (initial_guess : mpfr_t V) (tolerance : mpfr_t V)
    (rnd : mpfr_rnd_t) : Int × mpfr_t V :=
  let r := loop A tolerance rnd MAX_ITER (init A root initial_guess rnd)
  (r.1, r.2.root)

/-- The absolute residual `|f(x)|` of a point, evaluated by `function_f` and
`mpfr_abs` in fresh variables of precision `p`, as `main` does with
`verification` (lines 138 to 140). -/
def abs_residual_at (p : Nat) (x : mpfr_t V) (rnd : mpfr_rnd_t) : mpfr_t V :=
  mpfr_abs A (mpfr_init2 A p) (function_f A (mpfr_init2 A p) x rnd) rnd

/-- The precisions of the variables during a run, all equal to that of `root`,
and `x_current` left unchanged by a copy at that precision. -/
def Inv (p : Nat) (s : Locals V) : Prop :=
  s.root.prec = p ∧ s.x_current.prec = p ∧ s.x_next.prec = p ∧ s.f_val.prec = p ∧
  s.abs_diff.prec = p ∧ ∀ r, A.set p r s.x_current.val = s.x_current.val

end NewtonSingle

/-! ## The inputs of the two `main` functions, other concrete inputs, and the values
the concrete runs produce -/

namespace Inputs

open Mpfr

/-- The output array of `main` in `newton_system.c`: `mpfr_init` at the default
precision of 128 bits. -/
def x_main : NewtonSystem.Vec Val := (mpfr_init2 arith 128, mpfr_init2 arith 128)

/-- The value of `mpfr_set_d (v, 1.5, MPFR_RNDN)` at 128 bits. -/
def one_and_half : mpfr_t Val := ⟨128, set 128 MPFR_RNDN (Val.fin false 3 (-1))⟩

/-- The initial guess `(1.5, 1.5)` of `main`. -/
def guess_main : NewtonSystem.Vec Val := (one_and_half, one_and_half)

/-- The tolerance of `main`: `mpfr_set_str (tolerance, "1e-25", 10, MPFR_RNDN)`. -/
def tol_main : mpfr_t Val := ⟨128, set_quot 128 MPFR_RNDN 1 (10 ^ 25)⟩

/-- The initial guess `(0, 1.5)`, where the Jacobian is singular. -/
def guess_singular : NewtonSystem.Vec Val := (⟨128, set_ui 128 MPFR_RNDN 0⟩, one_and_half)

/-- The initial guess `(2^120, 1.5)`, too far for 100 iterations. -/
def guess_far : NewtonSystem.Vec Val := (⟨128, set 128 MPFR_RNDN (Val.fin false 1 120)⟩, one_and_half)

/-- The tolerance zero: `mpfr_set_ui (tolerance, 0, MPFR_RNDN)` at 128 bits. -/
def tol_zero : mpfr_t Val := ⟨128, set_ui 128 MPFR_RNDN 0⟩

/-- The output variable of `main` in `newton_single.c`. -/
def root_main : mpfr_t Val := mpfr_init2 arith 128

/-- The initial guess of `main` in `newton_single.c`: `mpfr_set_ui (v, 2, MPFR_RNDN)`. -/
def guess_single : mpfr_t Val := ⟨128, set_ui 128 MPFR_RNDN 2⟩

/-- The tolerance of `main` in `newton_single.c`: `"1e-30"`. -/
def tol_single : mpfr_t Val := ⟨128, set_quot 128 MPFR_RNDN 1 (10 ^ 30)⟩

/-- The point left in `x` by the run of `main` in `newton_system.c`. -/
def x_star : NewtonSystem.Vec Val :=
  (⟨128, Val.fin false 258187529781058962903271128071570924032 (-127)⟩,
   ⟨128, Val.fin false 221655788787189103140529585959380075254 (-127)⟩)

/-- The variables at the end of the run started from `guess_far`. -/
def far_final : NewtonSystem.Locals Val :=
  { x := (⟨128, Val.fin false 170141183460588010821830593884322869192 (-107)⟩,
          ⟨128, Val.fin false 221655788787189103140529586086464305520 (-127)⟩)
    f := (⟨128, Val.fin false 340282366920879073918302960274495150380 (-86)⟩,
          ⟨128, Val.fin false 340282366920879073918302960274495150380 (-86)⟩)
    J := ((⟨128, Val.fin false 170141183460498926504223129367574315620 (-105)⟩,
           ⟨128, Val.fin false 221655788787189103140529586086464305520 (-126)⟩),
          (⟨128, Val.fin false 170141183460498926504223129367574315620 (-105)⟩,
           ⟨128, Val.fin true 170141183460469231731687303715884105728 (-127)⟩))
    delta := (⟨128, Val.fin true 340282366920819684373231329701651524097 (-108)⟩,
              ⟨128, Val.zero true⟩)
    norm := ⟨128, Val.fin false 240615969167962516794982026669269493828 (-85)⟩
    temp := ⟨128, Val.fin false 340282366920819684373231323482490486055 (-44)⟩ }

/-- The root written by the run of `main` in `newton_single.c`. -/
def root_star : mpfr_t Val :=
  ⟨128, Val.fin false 178184733944245311187716757616000565152 (-126)⟩

/-- A coordinate agrees with the decimal `c` to five decimals: it is finite and
within half a unit of the fifth decimal of `c`. -/
def agrees5 (v : mpfr_t Val) (c : ℚ) : Prop :=
  ∃ a : ℚ, v.val.toRat? = some a ∧ |a - c| ≤ 1 / 200000

/-- Exact arithmetic on the rationals; the square root, which the linear solver
does not use, is left as the identity. -/
def exactRat : Arith ℚ :=
  exactArith ℚ (fun a => a) (fun a => |a|)
    (fun a b => if a < b then -1 else if b < a then 1 else 0)

/-- The Jacobian `[3 3; 3 -1]` of the system at `(1.5, 1.5)`. -/
def J_example : NewtonSystem.Mat ℚ := ((⟨128, 3⟩, ⟨128, 3⟩), (⟨128, 3⟩, ⟨128, -1⟩))

/-- The residual `(0.5, -0.25)` of the system at `(1.5, 1.5)`. -/
def f_example : NewtonSystem.Vec ℚ := (⟨128, 1 / 2⟩, ⟨128, -1 / 4⟩)

/-- Some previous content of `delta`. -/
def delta_example : NewtonSystem.Vec ℚ := (⟨128, 0⟩, ⟨128, 0⟩)

/-- The value 1 at 128 bits. -/
def one : mpfr_t Val := ⟨128, set_ui 128 MPFR_RNDN 1⟩

/-- The nearly singular matrix `[1 1; 1 1 + 2^-127]` at 128 bits, of determinant
`2^-127`. -/
def J_near_singular : NewtonSystem.Mat Val :=
  ((one, one), (one, ⟨128, Val.fin false (2 ^ 127 + 1) (-127)⟩))

/-- The right-hand side `(1, 1)` at 128 bits. -/
def f_ones : NewtonSystem.Vec Val := (one, one)

end Inputs

/-! ## The rounding of the MPFR arithmetic -/

namespace Mpfr

theorem log2Top_spec (fuel m j : Nat) (h : m < 2 ^ (2 ^ (j + fuel))) :
    m < 2 ^ (2 ^ (log2Top fuel m j)) := by
  induction fuel generalizing j with
  | zero => simpa [log2Top] using h
  | succ fuel ih =>
    unfold log2Top
    split_ifs with c
    · exact c
    · apply ih
      have : j + 1 + fuel = j + (fuel + 1) := by omega
      rw [this]; exact h

theorem log2Bits_spec (m j acc : Nat) (h1 : 2 ^ acc ≤ m) (h2 : m < 2 ^ (acc + 2 ^ j)) :
    2 ^ (log2Bits m j acc) ≤ m ∧ m < 2 ^ (log2Bits m j acc + 1) := by
  induction j generalizing acc with
  | zero => simpa [log2Bits] using And.intro h1 h2
  | succ j ih =>
    unfold log2Bits
    split_ifs with c
    · apply ih _ c
      have : acc + 2 ^ j + 2 ^ j = acc + 2 ^ (j + 1) := by rw [pow_succ]; omega
      rw [this]; exact h2
    · exact ih _ h1 (lt_of_not_le c)

theorem bitlen_pos {m : Nat} (hm : m ≠ 0) : 0 < bitlen m := by
  simp [bitlen, hm]

theorem bitlen_spec {m : Nat} (hm : m ≠ 0) :
    2 ^ (bitlen m - 1) ≤ m ∧ m < 2 ^ (bitlen m) := by
  have h0 : m < 2 ^ (0 + 2 ^ (log2Top m m 0)) := by
    rw [Nat.zero_add]
    apply log2Top_spec
    rw [Nat.zero_add]
    calc m < 2 ^ m := Nat.lt_two_pow m
      _ ≤ 2 ^ (2 ^ m) := Nat.pow_le_pow_right (by decide) (Nat.lt_two_pow m).le
  have h1 : 2 ^ 0 ≤ m := by simpa using Nat.pos_of_ne_zero hm
  have := log2Bits_spec m _ 0 h1 h0
  simpa [bitlen, hm] using this

theorem bitlen_unique {m l : Nat} (hl : 0 < l) (h1 : 2 ^ (l - 1) ≤ m) (h2 : m < 2 ^ l) :
    bitlen m = l := by
  have hm : m ≠ 0 := by
    have : 0 < 2 ^ (l - 1) := Nat.two_pow_pos (l - 1)
    omega
  have hb := bitlen_pos hm
  obtain ⟨s1, s2⟩ := bitlen_spec hm
  have a : l - 1 < bitlen m := (Nat.pow_lt_pow_iff_right (by decide : 1 < 2)).1 (lt_of_le_of_lt h1 s2)
  have b : bitlen m - 1 < l := (Nat.pow_lt_pow_iff_right (by decide : 1 < 2)).1 (lt_of_le_of_lt s1 h2)
  omega

theorem bitlen_zero : bitlen 0 = 0 := by simp [bitlen]

theorem bitlen_two_pow (p : Nat) (hp : 0 < p) : bitlen (2 ^ (p - 1)) = p :=
  bitlen_unique hp le_rfl (Nat.pow_lt_pow_right (by decide) (by omega))

theorem bitlen_pred_two_pow (p : Nat) (hp : 0 < p) : bitlen (2 ^ p - 1) = p := by
  have h1 : 0 < 2 ^ p := Nat.two_pow_pos p
  have h2 : 2 ^ (p - 1) < 2 ^ p := Nat.pow_lt_pow_right (by decide) (by omega)
  exact bitlen_unique hp (by omega) (by omega)

theorem checkRange_stored {p : Nat} (hp : 0 < p) (r : mpfr_rnd_t) (s : Bool) {m : Nat} (e : Int)
    (small : Bool) (hm : bitlen m = p) : Stored p (checkRange p r s m e small) := by
  have hb := bitlen_pred_two_pow p hp
  have ht := bitlen_two_pow p hp
  unfold checkRange
  split_ifs with h1 h2
  · cases r <;> cases s <;> simp [overflow, Stored, hb, emin, emax]
  · cases r <;> cases s <;> cases small <;> simp [underflow, Stored, ht, emin, emax]
  · exact ⟨hm, by omega, by omega⟩

theorem shiftLeft_bitlen {p m : Nat} (hp : 0 < p) (h0 : m ≠ 0) (h1 : bitlen m ≤ p) :
    bitlen (m <<< (p - bitlen m)) = p := by
  obtain ⟨s1, s2⟩ := bitlen_spec h0
  have hb := bitlen_pos h0
  rw [Nat.shiftLeft_eq]
  apply bitlen_unique hp
  · calc 2 ^ (p - 1) = 2 ^ (bitlen m - 1) * 2 ^ (p - bitlen m) := by
          rw [← pow_add]; congr 1; omega
      _ ≤ m * 2 ^ (p - bitlen m) := Nat.mul_le_mul_right _ s1
  · calc m * 2 ^ (p - bitlen m) < 2 ^ bitlen m * 2 ^ (p - bitlen m) :=
          Nat.mul_lt_mul_of_pos_right s2 (Nat.two_pow_pos _)
      _ = 2 ^ p := by rw [← pow_add]; congr 1; omega

theorem shiftRight_bounds {p m : Nat} (hp : 0 < p) (h0 : m ≠ 0) (h1 : ¬ bitlen m ≤ p) :
    2 ^ (p - 1) ≤ m >>> (bitlen m - p) ∧ m >>> (bitlen m - p) < 2 ^ p := by
  obtain ⟨s1, s2⟩ := bitlen_spec h0
  have hk : 0 < 2 ^ (bitlen m - p) := Nat.two_pow_pos _
  constructor
  · rw [Nat.shiftRight_eq_div_pow, Nat.le_div_iff_mul_le hk, ← pow_add]
    have : p - 1 + (bitlen m - p) = bitlen m - 1 := by omega
    rw [this]; exact s1
  · rw [Nat.shiftRight_eq_div_pow, Nat.div_lt_iff_lt_mul hk, ← pow_add]
    have : p + (bitlen m - p) = bitlen m := by omega
    rw [this]; exact s2

theorem round_stored {p : Nat} (hp : 0 < p) (r : mpfr_rnd_t) (s : Bool) (m : Nat) (e : Int)
    (st : Bool) : Stored p (round p r s m e st) := by
  unfold round
  dsimp only
  by_cases h0 : m = 0
  · rw [if_pos h0]; trivial
  rw [if_neg h0]
  by_cases h1 : bitlen m ≤ p
  · rw [if_pos h1]
    exact checkRange_stored hp _ _ _ _ (shiftLeft_bitlen hp h0 h1)
  rw [if_neg h1]
  obtain ⟨q1, q2⟩ := shiftRight_bounds hp h0 h1
  split_ifs with hu h2 h3
  · exact checkRange_stored hp _ _ _ _ (bitlen_two_pow p hp)
  · exact checkRange_stored hp _ _ _ _ (bitlen_unique hp (by omega) (by omega))
  · exact checkRange_stored hp _ _ _ _ (bitlen_two_pow p hp)
  · exact checkRange_stored hp _ _ _ _ (bitlen_unique hp q1 q2)

theorem set_of_stored {p : Nat} (hp : 0 < p) (r : mpfr_rnd_t) {v : Val} (h : Stored p v) :
    set p r v = v := by
  cases v with
  | fin s m e =>
    obtain ⟨hm, h1, h2⟩ := h
    by_cases hz : m = 0
    · subst hz
      rw [bitlen_zero] at hm
      omega
    · simp only [set, round, hz, hm, if_false, le_refl, if_true, Nat.sub_self, checkRange]
      rw [if_neg (by omega), if_neg (by omega)]
      simp
  | _ => rfl

theorem set_stored {p : Nat} (hp : 0 < p) (r : mpfr_rnd_t) (v : Val) :
    Stored p (set p r v) := by
  cases v with
  | fin s m e => exact round_stored hp _ _ _ _ _
  | _ => trivial

theorem add_stored {p : Nat} (hp : 0 < p) (r : mpfr_rnd_t) (a b : Val) :
    Stored p (add p r a b) := by
  cases a <;> cases b <;> simp only [add] <;> (try split_ifs) <;>
    first | trivial | exact round_stored hp _ _ _ _ _

theorem isqrtBits_spec (n k : Nat) :
    ∀ r : Nat, r * r ≤ n → n < (r + 2 ^ k) * (r + 2 ^ k) →
      isqrtBits n k r * isqrtBits n k r ≤ n ∧
      n < (isqrtBits n k r + 1) * (isqrtBits n k r + 1) := by
  induction k with
  | zero => intro r h1 h2; simpa [isqrtBits] using And.intro h1 h2
  | succ k ih =>
    intro r h1 h2
    unfold isqrtBits
    split_ifs with c
    · apply ih _ c
      have : r + 2 ^ k + 2 ^ k = r + 2 ^ (k + 1) := by rw [pow_succ]; omega
      rw [this]; exact h2
    · exact ih _ h1 (lt_of_not_le c)

/-- The integer square root is the floor of the square root. -/
theorem isqrt_spec (n : Nat) : isqrt n * isqrt n ≤ n ∧ n < (isqrt n + 1) * (isqrt n + 1) := by
  apply isqrtBits_spec
  · simp
  · rw [Nat.zero_add, ← pow_add]
    by_cases hn : n = 0
    · subst hn; exact Nat.two_pow_pos _
    · calc n < 2 ^ bitlen n := (bitlen_spec hn).2
        _ ≤ 2 ^ (bitlen n / 2 + 1 + (bitlen n / 2 + 1)) :=
          Nat.pow_le_pow_right (by decide) (by omega)

end Mpfr

/-! ## The loop of `newton_method_system` -/

namespace NewtonSystem

variable {V : Type} (A : Arith V)

theorem system_f_congr (f g x : Vec V) (rnd : mpfr_rnd_t) (h1 : f.1.prec = g.1.prec)
    (h2 : f.2.prec = g.2.prec) : system_f A f x rnd = system_f A g x rnd := by
  simp [system_f, mpfr_add, mpfr_sub, mpfr_sub_ui, h1, h2]

theorem residual_norm_congr (n n1 t t1 : mpfr_t V) (f : Vec V) (rnd : mpfr_rnd_t)
    (h1 : n.prec = n1.prec) (h2 : t.prec = t1.prec) :
    residual_norm A n t f rnd = residual_norm A n1 t1 f rnd := by
  simp [residual_norm, mpfr_set_ui, mpfr_mul, mpfr_add, mpfr_sqrt, h1, h2]

theorem jacobian_congr (J J1 : Mat V) (x : Vec V) (rnd : mpfr_rnd_t)
    (h1 : J.1.1.prec = J1.1.1.prec) (h2 : J.1.2.prec = J1.1.2.prec)
    (h3 : J.2.1.prec = J1.2.1.prec) (h4 : J.2.2.prec = J1.2.2.prec) :
    jacobian A J x rnd = jacobian A J1 x rnd := by
  simp [jacobian, mpfr_mul_ui, mpfr_set_si, h1, h2, h3, h4]

theorem system_f_prec (f x : Vec V) (rnd : mpfr_rnd_t) :
    (system_f A f x rnd).1.prec = f.1.prec ∧ (system_f A f x rnd).2.prec = f.2.prec := by
  simp [system_f, mpfr_add, mpfr_sub, mpfr_sub_ui]

theorem residual_norm_prec (n t : mpfr_t V) (f : Vec V) (rnd : mpfr_rnd_t) :
    (residual_norm A n t f rnd).1.prec = n.prec ∧ (residual_norm A n t f rnd).2.prec = t.prec := by
  simp [residual_norm, mpfr_set_ui, mpfr_mul, mpfr_add, mpfr_sqrt]

theorem jacobian_prec (J : Mat V) (x : Vec V) (rnd : mpfr_rnd_t) :
    (jacobian A J x rnd).1.1.prec = J.1.1.prec ∧ (jacobian A J x rnd).1.2.prec = J.1.2.prec ∧
    (jacobian A J x rnd).2.1.prec = J.2.1.prec ∧ (jacobian A J x rnd).2.2.prec = J.2.2.prec := by
  simp [jacobian, mpfr_mul_ui, mpfr_set_si]

theorem residual_at_prec (p : Nat) (x : Vec V) (rnd : mpfr_rnd_t) :
    (residual_at A p x rnd).1.prec = p ∧ (residual_at A p x rnd).2.prec = p := by
  simp [residual_at, system_f, mpfr_add, mpfr_sub, mpfr_sub_ui, mpfr_init2]

theorem residual_norm_at_prec (p : Nat) (x : Vec V) (rnd : mpfr_rnd_t) :
    (residual_norm_at A p x rnd).prec = p := by
  simp [residual_norm_at, residual_norm, mpfr_set_ui, mpfr_mul, mpfr_add, mpfr_sqrt, mpfr_init2]

theorem solve_fst (delta : Vec V) (J : Mat V) (f : Vec V) (rnd : mpfr_rnd_t) :
    (solve_linear_system_2x2 A delta J f rnd).1 =
      if mpfr_zero_p A (determinant A J f rnd) then 0 else 1 := by
  unfold solve_linear_system_2x2
  dsimp only
  split_ifs <;> rfl

theorem residual_of_inv {p0 p1 : Nat} {s : Locals V} (h : Inv p0 p1 s) (rnd : mpfr_rnd_t) :
    system_f A s.f s.x rnd = residual_at A p0 s.x rnd := by
  obtain ⟨-, -, h3, h4, -⟩ := h
  exact system_f_congr A _ _ _ _ (by simp [mpfr_init2, h3]) (by simp [mpfr_init2, h4])

theorem norm_of_inv {p0 p1 : Nat} {s : Locals V} (h : Inv p0 p1 s) (rnd : mpfr_rnd_t) :
    (residual_norm A s.norm s.temp (system_f A s.f s.x rnd) rnd).1 =
      residual_norm_at A p0 s.x rnd := by
  unfold residual_norm_at
  rw [residual_of_inv A h]
  obtain ⟨-, -, -, -, h5, h6, -⟩ := h
  rw [residual_norm_congr A s.norm (mpfr_init2 A p0) s.temp (mpfr_init2 A p0) _ _
    (by simp [mpfr_init2, h5]) (by simp [mpfr_init2, h6])]

theorem det_of_inv {p0 p1 : Nat} {s : Locals V} (h : Inv p0 p1 s) (rnd : mpfr_rnd_t) :
    determinant A (jacobian A s.J s.x rnd) (system_f A s.f s.x rnd) rnd =
      det_at A p0 s.x rnd := by
  unfold det_at
  rw [residual_of_inv A h]
  obtain ⟨-, -, -, -, -, -, h7, h8, h9, h10⟩ := h
  rw [jacobian_congr A s.J ((mpfr_init2 A p0, mpfr_init2 A p0), (mpfr_init2 A p0, mpfr_init2 A p0))
    _ _ (by simp [mpfr_init2, h7]) (by simp [mpfr_init2, h8]) (by simp [mpfr_init2, h9])
    (by simp [mpfr_init2, h10])]

/-- The three ways through the body of the loop, in terms of the iterate alone. -/
theorem body_cases {p0 p1 : Nat} (tol : mpfr_t V) (rnd : mpfr_rnd_t) {s : Locals V}
    (h : Inv p0 p1 s) :
    (mpfr_cmp A (residual_norm_at A p0 s.x rnd) tol < 0 ∧
      ∃ t, body A tol rnd s = Step.ret 1 t ∧ t.x = s.x ∧ t.f = residual_at A p0 s.x rnd) ∨
    (¬ (mpfr_cmp A (residual_norm_at A p0 s.x rnd) tol < 0) ∧
      mpfr_zero_p A (det_at A p0 s.x rnd) = true ∧
      ∃ t, body A tol rnd s = Step.ret 0 t ∧ t.x = s.x ∧ t.f = residual_at A p0 s.x rnd) ∨
    (¬ (mpfr_cmp A (residual_norm_at A p0 s.x rnd) tol < 0) ∧
      mpfr_zero_p A (det_at A p0 s.x rnd) = false ∧
      ∃ t, body A tol rnd s = Step.next t ∧ Inv p0 p1 t ∧
        t.f = residual_at A p0 s.x rnd ∧
        t.x = (mpfr_add A s.x.1 s.x.1 t.delta.1 rnd, mpfr_add A s.x.2 s.x.2 t.delta.2 rnd)) := by
  have hn := norm_of_inv A h rnd
  have hd := det_of_inv A h rnd
  have hf := residual_of_inv A h rnd
  have hs := solve_fst A s.delta (jacobian A s.J s.x rnd) (system_f A s.f s.x rnd) rnd
  by_cases c1 : mpfr_cmp A (residual_norm_at A p0 s.x rnd) tol < 0
  · left
    refine ⟨c1, ?_⟩
    unfold body
    dsimp only
    rw [hn, if_pos c1]
    exact ⟨_, rfl, rfl, hf⟩
  · right
    cases c2 : mpfr_zero_p A (det_at A p0 s.x rnd)
    · right
      refine ⟨c1, rfl, ?_⟩
      rw [hd, c2] at hs
      unfold body
      dsimp only
      rw [hn, if_neg c1, hs]
      simp only [Bool.false_eq_true, if_false, one_ne_zero]
      refine ⟨_, rfl, ?_, hf, rfl⟩
      obtain ⟨h1, h2, h3, h4, h5, h6, h7, h8, h9, h10⟩ := h
      have sp := system_f_prec A s.f s.x rnd
      have np := residual_norm_prec A s.norm s.temp (system_f A s.f s.x rnd) rnd
      have jp := jacobian_prec A s.J s.x rnd
      have rp := residual_at_prec A p0 s.x rnd
      have rnp := residual_norm_at_prec A p0 s.x rnd
      refine ⟨?_, ?_, ?_, ?_, ?_, ?_, ?_, ?_, ?_, ?_⟩ <;>
        simp [mpfr_add, h1, h2, h3, h4, h5, h6, h7, h8, h9, h10, sp, np, jp, rp, rnp]
    · left
      refine ⟨c1, rfl, ?_⟩
      rw [hd, c2] at hs
      unfold body
      dsimp only
      rw [hn, if_neg c1, hs]
      simp only [if_true]
      exact ⟨_, rfl, rfl, hf⟩

theorem init_inv (x guess : Vec V) (rnd : mpfr_rnd_t) :
    Inv x.1.prec x.2.prec (init A x guess rnd) := by
  simp [Inv, init, mpfr_set, mpfr_init2, mpfr_get_prec]

theorem body_next_inv {p0 p1 : Nat} (tol : mpfr_t V) (rnd : mpfr_rnd_t) {s t : Locals V}
    (h : Inv p0 p1 s) (hb : body A tol rnd s = Step.next t) :
    Inv p0 p1 t ∧ ¬ (mpfr_cmp A (residual_norm_at A p0 s.x rnd) tol < 0) ∧
      t.f = residual_at A p0 s.x rnd ∧
      t.x = (mpfr_add A s.x.1 s.x.1 t.delta.1 rnd, mpfr_add A s.x.2 s.x.2 t.delta.2 rnd) := by
  rcases body_cases A tol rnd h with ⟨-, u, hu, -⟩ | ⟨-, -, u, hu, -⟩ | ⟨c1, -, u, hu, h1, h2, h3⟩
  · rw [hu] at hb; cases hb
  · rw [hu] at hb; cases hb
  · rw [hu] at hb; cases hb; exact ⟨h1, c1, h2, h3⟩

theorem iterates_inv {p0 p1 : Nat} (tol : mpfr_t V) (rnd : mpfr_rnd_t) (k : Nat) :
    ∀ {s t : Locals V}, Inv p0 p1 s → iterates A tol rnd k s = some t → Inv p0 p1 t := by
  induction k with
  | zero => intro s t h e; simp only [iterates, Option.some.injEq] at e; exact e ▸ h
  | succ k ih =>
    intro s t h e
    unfold iterates at e
    cases hb : body A tol rnd s with
    | ret c u => rw [hb] at e; cases e
    | next u => rw [hb] at e; exact ih (body_next_inv A tol rnd h hb).1 e

theorem iterates_succ (tol : mpfr_t V) (rnd : mpfr_rnd_t) (k : Nat) :
    ∀ {s t : Locals V}, iterates A tol rnd (k + 1) s = some t →
      ∃ u, iterates A tol rnd k s = some u ∧ body A tol rnd u = Step.next t := by
  induction k with
  | zero =>
    intro s t e
    unfold iterates at e
    cases hb : body A tol rnd s with
    | ret c u => rw [hb] at e; cases e
    | next u =>
      rw [hb] at e
      simp only [iterates, Option.some.injEq] at e
      exact ⟨s, rfl, e ▸ hb⟩
  | succ k ih =>
    intro s t e
    unfold iterates at e
    cases hb : body A tol rnd s with
    | ret c u => rw [hb] at e; cases e
    | next u =>
      rw [hb] at e
      obtain ⟨w, hw, hw2⟩ := ih e
      refine ⟨w, ?_, hw2⟩
      unfold iterates
      rw [hb]; exact hw

theorem loop_of_ret (tol : mpfr_t V) (rnd : mpfr_rnd_t) (k : Nat) :
    ∀ {n : Nat} {s u t : Locals V} {c : Int}, k < n → iterates A tol rnd k s = some u →
      body A tol rnd u = Step.ret c t → loop A tol rnd n s = (c, t) := by
  induction k with
  | zero =>
    intro n s u t c hk e hb
    simp only [iterates, Option.some.injEq] at e
    subst e
    obtain ⟨n, rfl⟩ : ∃ m, n = m + 1 := ⟨n - 1, by omega⟩
    unfold loop
    rw [hb]
  | succ k ih =>
    intro n s u t c hk e hb
    obtain ⟨n, rfl⟩ : ∃ m, n = m + 1 := ⟨n - 1, by omega⟩
    unfold iterates at e
    unfold loop
    cases hs : body A tol rnd s with
    | ret c1 u1 => rw [hs] at e; cases e
    | next u1 => rw [hs] at e; exact ih (by omega) e hb

theorem loop_of_all (tol : mpfr_t V) (rnd : mpfr_rnd_t) (n : Nat) :
    ∀ {s t : Locals V}, iterates A tol rnd n s = some t → loop A tol rnd n s = (0, t) := by
  induction n with
  | zero => intro s t e; simp only [iterates, Option.some.injEq] at e; subst e; rfl
  | succ n ih =>
    intro s t e
    unfold iterates at e
    unfold loop
    cases hs : body A tol rnd s with
    | ret c1 u1 => rw [hs] at e; cases e
    | next u1 => rw [hs] at e; exact ih e

theorem loop_cases (tol : mpfr_t V) (rnd : mpfr_rnd_t) (n : Nat) :
    ∀ {s t : Locals V} {c : Int}, loop A tol rnd n s = (c, t) →
      (∃ k u, k < n ∧ iterates A tol rnd k s = some u ∧ body A tol rnd u = Step.ret c t) ∨
      (c = 0 ∧ iterates A tol rnd n s = some t) := by
  induction n with
  | zero =>
    intro s t c e
    simp only [loop, Prod.mk.injEq] at e
    exact Or.inr ⟨e.1.symm, by rw [← e.2]; rfl⟩
  | succ n ih =>
    intro s t c e
    unfold loop at e
    cases hs : body A tol rnd s with
    | ret c1 u1 =>
      rw [hs] at e
      simp only [Prod.mk.injEq] at e
      exact Or.inl ⟨0, s, by omega, rfl, by rw [hs, e.1, e.2]⟩
    | next u1 =>
      rw [hs] at e
      rcases ih e with ⟨k, u, hk, h1, h2⟩ | ⟨h1, h2⟩
      · refine Or.inl ⟨k + 1, u, by omega, ?_, h2⟩
        unfold iterates; rw [hs]; exact h1
      · refine Or.inr ⟨h1, ?_⟩
        unfold iterates; rw [hs]; exact h2

/-- A run that returns success comes from a pass whose iterate is the returned
point and has a residual norm below the tolerance. -/
theorem success_pass (x guess : Vec V) (tol : mpfr_t V) (rnd : mpfr_rnd_t) (xs : Vec V)
    (h : newton_method_system A x guess tol rnd = (1, xs)) :
    ∃ k u, k < MAX_ITER ∧ iterates A tol rnd k (init A x guess rnd) = some u ∧ u.x = xs ∧
      mpfr_cmp A (residual_norm_at A x.1.prec xs rnd) tol < 0 := by
  unfold newton_method_system run at h
  simp only [Prod.mk.injEq] at h
  obtain ⟨h1, h2⟩ := h
  have e : loop A tol rnd MAX_ITER (init A x guess rnd) =
      (1, (loop A tol rnd MAX_ITER (init A x guess rnd)).2) := by
    rw [← h1]
  rcases loop_cases A tol rnd MAX_ITER e with ⟨k, u, hk, hi, hb⟩ | ⟨h0, -⟩
  · have hinv := iterates_inv A tol rnd k (init_inv A x guess rnd) hi
    rcases body_cases A tol rnd hinv with ⟨c1, t, ht, hx, -⟩ | ⟨-, -, t, ht, -⟩ | ⟨-, -, t, ht, -⟩
    · rw [ht] at hb
      injection hb with _ hb2
      rw [← hb2, hx] at h2
      exact ⟨k, u, hk, hi, h2, h2 ▸ c1⟩
    · rw [ht] at hb; injection hb with hb1 _; exact absurd hb1 (by decide)
    · rw [ht] at hb; cases hb
  · exact absurd h0 (by decide)

end NewtonSystem

/-! ## Evaluation of the concrete runs -/

namespace Inputs

open Mpfr NewtonSystem

theorem main_run :
    newton_method_system arith x_main guess_main tol_main MPFR_RNDN = (1, x_star) := by
  decide!

theorem far_run :
    iterates arith tol_main MPFR_RNDN MAX_ITER (init arith x_main guess_far MPFR_RNDN) =
      some far_final := by
  decide!

theorem singular_run :
    (init arith x_main guess_singular MPFR_RNDN).x = guess_singular ∧
    ¬ (mpfr_cmp arith (residual_norm_at arith (mpfr_get_prec x_main.1) guess_singular MPFR_RNDN)
          tol_main < 0) ∧
    mpfr_zero_p arith (det_at arith (mpfr_get_prec x_main.1) guess_singular MPFR_RNDN) = true := by
  decide!

theorem single_run :
    NewtonSingle.newton_method_single arith root_main guess_single tol_single MPFR_RNDN =
      (1, root_star) := by
  decide!

end Inputs

/-! ## Exact copies, and the loop of `newton_method_single` -/

namespace NewtonSystem

variable {V : Type} (A : Arith V)

/-- A pass whose iterate has a residual norm not below the tolerance and a
Jacobian of determinant zero makes the run return 0 with that iterate in `x`. -/
theorem singular_pass_returns (x guess : Vec V) (tol : mpfr_t V) (rnd : mpfr_rnd_t)
    (k : Nat) (s : Locals V) (hk : k < MAX_ITER)
    (hi : iterates A tol rnd k (init A x guess rnd) = some s)
    (hn : ¬ (mpfr_cmp A (residual_norm_at A (mpfr_get_prec x.1) s.x rnd) tol < 0))
    (hd : mpfr_zero_p A (det_at A (mpfr_get_prec x.1) s.x rnd) = true) :
    newton_method_system A x guess tol rnd = (0, s.x) := by
  have hinv := iterates_inv A tol rnd k (init_inv A x guess rnd) hi
  unfold mpfr_get_prec at hn hd
  rcases body_cases A tol rnd hinv with ⟨c1, -⟩ | ⟨-, -, t, ht, hx, -⟩ | ⟨-, c2, -⟩
  · exact absurd c1 hn
  · unfold newton_method_system run
    rw [loop_of_ret A tol rnd k hk hi ht]
    show (0, t.x) = (0, s.x)
    rw [hx]
  · rw [hd] at c2; cases c2

end NewtonSystem

namespace Mpfr

/-- In the MPFR arithmetic a copy at equal precision is exact. -/
theorem arith_exactCopy : ExactCopy arith where
  set_set := fun _ r r1 a hp => set_of_stored hp r (set_stored hp r1 a)
  set_add := fun _ r r1 a b hp => set_of_stored hp r (add_stored hp r1 a b)

theorem checkRange_zero_sign {p : Nat} {r : mpfr_rnd_t} {s t : Bool} {m : Nat} {e : Int}
    {small : Bool} (h : checkRange p r s m e small = Val.zero t) : t = s := by
  unfold checkRange at h
  split_ifs at h
  · cases r <;> cases s <;> simp [overflow] at h
  · cases r <;> cases s <;> cases small <;> simp [underflow] at h <;> exact h

theorem round_zero_sign {p : Nat} {r : mpfr_rnd_t} {s t : Bool} {m : Nat} {e : Int}
    {st : Bool} (h : round p r s m e st = Val.zero t) : t = s := by
  unfold round at h
  dsimp only at h
  split_ifs at h
  · injection h with h; exact h.symm
  all_goals exact checkRange_zero_sign h

/-- Adding a square to the zero written by `mpfr_set_ui` changes nothing. -/
theorem zero_add_square {p : Nat} (hp : 0 < p) (r : mpfr_rnd_t) (a : Val) :
    add p r (set_ui p r 0) (mul p r a a) = mul p r a a := by
  have hz : set_ui p r 0 = Val.zero false := rfl
  rw [hz]
  cases a with
  | nan => rfl
  | inf s => rfl
  | zero s => cases s <;> rfl
  | fin s m e =>
    have hst := round_stored hp r (xor s s) (m * m) (e + e) false
    have hm : mul p r (Val.fin s m e) (Val.fin s m e) =
        round p r (xor s s) (m * m) (e + e) false := rfl
    rw [hm]
    cases hv : round p r (xor s s) (m * m) (e + e) false with
    | nan => rfl
    | inf t => rfl
    | zero t =>
      have ht := round_zero_sign hv
      have hx : xor s s = false := by cases s <;> rfl
      rw [hx] at ht
      subst ht
      rfl
    | fin t n g =>
      rw [hv] at hst
      exact set_of_stored hp r hst

/-- In the MPFR arithmetic the norm accumulated by lines 124 to 129 is
`sqrt (f1^2 + f2^2)`, each operation rounded once. -/
theorem residual_norm_eq_sqrt_sum_squares {p : Nat} (hp : 0 < p) (norm temp : mpfr_t Val)
    (f : NewtonSystem.Vec Val) (r : mpfr_rnd_t) (hn : norm.prec = p) (ht : temp.prec = p) :
    (NewtonSystem.residual_norm arith norm temp f r).1.val =
      sqrt p r (add p r (mul p r f.1.val f.1.val) (mul p r f.2.val f.2.val)) := by
  simp only [NewtonSystem.residual_norm, mpfr_set_ui, mpfr_mul, mpfr_add, mpfr_sqrt, hn, ht]
  show sqrt p r (add p r (add p r (set_ui p r 0) (mul p r f.1.val f.1.val))
    (mul p r f.2.val f.2.val)) = _
  rw [zero_add_square hp]

end Mpfr

namespace NewtonSystem

variable {V : Type} (A : Arith V)

theorem iterates_settled (hA : ExactCopy A) (x guess : Vec V) (tol : mpfr_t V)
    (rnd : mpfr_rnd_t) (h0 : 0 < x.1.prec) (h1 : 0 < x.2.prec) (k : Nat) (s : Locals V)
    (hi : iterates A tol rnd k (init A x guess rnd) = some s) : Settled A s.x := by
  cases k with
  | zero =>
    simp only [iterates, Option.some.injEq] at hi
    subst hi
    exact ⟨fun r => hA.set_set _ r rnd _ h0, fun r => hA.set_set _ r rnd _ h1⟩
  | succ k =>
    obtain ⟨u, hu, hb⟩ := iterates_succ A tol rnd k hi
    have hinv := iterates_inv A tol rnd k (init_inv A x guess rnd) hu
    obtain ⟨-, -, -, hx⟩ := body_next_inv A tol rnd hinv hb
    obtain ⟨p0, p1, -⟩ := hinv
    rw [hx]
    exact ⟨fun r => hA.set_add _ r rnd _ _ (by simp only [mpfr_add]; omega),
      fun r => hA.set_add _ r rnd _ _ (by simp only [mpfr_add]; omega)⟩

/-- In an arithmetic whose copies at equal precision are exact, a second call from
the point of a successful run succeeds in its first pass and leaves the point
unchanged. -/
theorem rerun_of_exactCopy (hA : ExactCopy A) (x guess : Vec V) (tol : mpfr_t V)
    (rnd : mpfr_rnd_t) (xs : Vec V) (h0 : 0 < x.1.prec) (h1 : 0 < x.2.prec)
    (h : newton_method_system A x guess tol rnd = (1, xs))
    (x1 : Vec V) (e0 : x1.1.prec = x.1.prec) (e1 : x1.2.prec = x.2.prec) :
    newton_method_system A x1 xs tol rnd = (1, xs) ∧
    (init A x1 xs rnd).x = xs ∧
    ∃ t, body A tol rnd (init A x1 xs rnd) = Step.ret 1 t ∧ t.x = xs := by
  obtain ⟨k, u, -, hi, hx, hc⟩ := success_pass A x guess tol rnd xs h
  have hinv := iterates_inv A tol rnd k (init_inv A x guess rnd) hi
  have hs := iterates_settled A hA x guess tol rnd h0 h1 k u hi
  rw [hx] at hs
  obtain ⟨p0, p1, -⟩ := hinv
  rw [hx] at p0 p1
  have hx1 : (init A x1 xs rnd).x = xs := by
    obtain ⟨s0, s1⟩ := hs
    have a0 : A.set x1.1.prec rnd xs.1.val = xs.1.val := by rw [e0, ← p0]; exact s0 rnd
    have a1 : A.set x1.2.prec rnd xs.2.val = xs.2.val := by rw [e1, ← p1]; exact s1 rnd
    show (mpfr_set A x1.1 xs.1 rnd, mpfr_set A x1.2 xs.2 rnd) = xs
    unfold mpfr_set
    rw [a0, a1, e0, e1, ← p0, ← p1]
  have hinv1 := init_inv A x1 xs rnd
  rw [← e0] at hc
  rcases body_cases A tol rnd hinv1 with ⟨-, t, ht, htx, -⟩ | ⟨c, -⟩ | ⟨c, -⟩
  · rw [hx1] at htx
    refine ⟨?_, hx1, t, ht, htx⟩
    unfold newton_method_system run
    rw [loop_of_ret A tol rnd 0 (by decide) rfl ht]
    show (1, t.x) = (1, xs)
    rw [htx]
  · rw [hx1] at c; exact absurd hc c
  · rw [hx1] at c; exact absurd hc c

end NewtonSystem

namespace NewtonSingle

variable {V : Type} (A : Arith V)

theorem function_f_congr (r r1 x : mpfr_t V) (rnd : mpfr_rnd_t) (h : r.prec = r1.prec) :
    function_f A r x rnd = function_f A r1 x rnd := by
  simp [function_f, mpfr_sub, mpfr_sub_ui, h]

theorem single_init_inv (hA : ExactCopy A) (root guess : mpfr_t V) (rnd : mpfr_rnd_t)
    (hp : 0 < root.prec) : Inv A root.prec (init A root guess rnd) := by
  refine ⟨rfl, rfl, rfl, rfl, rfl, ?_⟩
  intro r
  exact hA.set_set _ r rnd _ hp

theorem single_body_next_inv (hA : ExactCopy A) {p : Nat} (hp : 0 < p) (tol : mpfr_t V)
    (rnd : mpfr_rnd_t) {s t : Locals V} (h : Inv A p s) (hb : body A tol rnd s = Step.next t) :
    Inv A p t := by
  obtain ⟨h1, h2, h3, h4, h5, h6⟩ := h
  unfold body at hb
  dsimp only at hb
  split_ifs at hb with c1 c2
  injection hb with hb
  subst hb
  refine ⟨h1, ?_, ?_, ?_, ?_, ?_⟩
  · simp [mpfr_set, h2]
  · simp [mpfr_sub, h3]
  · simp [function_f, mpfr_sub_ui, mpfr_sub, h4]
  · simp [mpfr_div, mpfr_abs, h5]
  · intro r
    simp only [mpfr_set, h2]
    exact hA.set_set _ r rnd _ hp

theorem single_body_ret_one {p : Nat} (tol : mpfr_t V)
    (rnd : mpfr_rnd_t) {s t : Locals V} (h : Inv A p s) (c : Int)
    (hb : body A tol rnd s = Step.ret c t) (hc : c = 1) :
    mpfr_cmp A (abs_residual_at A p t.root rnd) tol < 0 := by
  obtain ⟨h1, h2, h3, h4, h5, h6⟩ := h
  unfold body at hb
  dsimp only at hb
  split_ifs at hb with c1 c2
  · injection hb with _ hb
    subst hb
    have hroot : mpfr_set A s.root s.x_current rnd = s.x_current := by
      unfold mpfr_set
      rw [h1, h6 rnd]
      cases hx : s.x_current
      rw [hx] at h2
      simp only at h2
      rw [h2]
    show mpfr_cmp A (abs_residual_at A p (mpfr_set A s.root s.x_current rnd) rnd) tol < 0
    rw [hroot]
    unfold abs_residual_at
    rw [function_f_congr A (mpfr_init2 A p) s.f_val s.x_current rnd (by simp [mpfr_init2, h4])]
    have : mpfr_abs A (mpfr_init2 A p) (function_f A s.f_val s.x_current rnd) rnd =
        mpfr_abs A s.abs_diff (function_f A s.f_val s.x_current rnd) rnd := by
      simp [mpfr_abs, mpfr_init2, h5]
    rw [this]
    exact c1
  · injection hb with hb _
    rw [hc] at hb
    exact absurd hb (by decide)

theorem single_loop_ret_one (hA : ExactCopy A) {p : Nat} (hp : 0 < p) (tol : mpfr_t V)
    (rnd : mpfr_rnd_t) (n : Nat) :
    ∀ {s t : Locals V}, Inv A p s → loop A tol rnd n s = (1, t) →
      mpfr_cmp A (abs_residual_at A p t.root rnd) tol < 0 := by
  induction n with
  | zero =>
    intro s t _ e
    simp only [loop, Prod.mk.injEq] at e
    exact absurd e.1 (by decide)
  | succ n ih =>
    intro s t h e
    unfold loop at e
    cases hb : body A tol rnd s with
    | ret c u =>
      rw [hb] at e
      simp only [Prod.mk.injEq] at e
      rw [← e.2]
      exact single_body_ret_one A tol rnd h c hb e.1
    | next u =>
      rw [hb] at e
      exact ih (single_body_next_inv A hA hp tol rnd h hb) e

end NewtonSingle

/-- In an arithmetic whose copies at equal precision are exact, the root written
by a successful run has an absolute residual below the tolerance. -/
theorem single_success_of_exactCopy {V : Type} (A : Arith V) (hA : ExactCopy A)
    (root guess tol : mpfr_t V) (rnd : mpfr_rnd_t) (r : mpfr_t V) (hp : 0 < root.prec)
    (h : NewtonSingle.newton_method_single A root guess tol rnd = (1, r)) :
    mpfr_cmp A (NewtonSingle.abs_residual_at A (mpfr_get_prec root) r rnd) tol < 0 := by
  unfold NewtonSingle.newton_method_single at h
  simp only [Prod.mk.injEq] at h
  obtain ⟨h1, h2⟩ := h
  have e : NewtonSingle.loop A tol rnd NewtonSingle.MAX_ITER
        (NewtonSingle.init A root guess rnd) =
      (1, (NewtonSingle.loop A tol rnd NewtonSingle.MAX_ITER
        (NewtonSingle.init A root guess rnd)).2) := by
    rw [← h1]
  have := NewtonSingle.single_loop_ret_one A hA hp tol rnd _
    (NewtonSingle.single_init_inv A hA root guess rnd hp) e
  rw [h2] at this
  exact this

/-! ## The convergence test under a tolerance that is not positive -/

namespace Mpfr

theorem checkRange_nonneg (p : Nat) (r : mpfr_rnd_t) (m : Nat) (e : Int) (small : Bool) :
    NonNeg (checkRange p r false m e small) := by
  unfold checkRange
  split_ifs
  · cases r <;> simp [overflow, NonNeg]
  · cases r <;> cases small <;> simp [underflow, NonNeg]
  · rfl

theorem round_nonneg (p : Nat) (r : mpfr_rnd_t) (m : Nat) (e : Int) (st : Bool) :
    NonNeg (round p r false m e st) := by
  unfold round
  dsimp only
  split_ifs <;> first | trivial | exact checkRange_nonneg _ _ _ _ _

/-- A square root is never negative. -/
theorem sqrt_nonneg (p : Nat) (r : mpfr_rnd_t) (a : Val) : NonNeg (sqrt p r a) := by
  cases a with
  | nan => trivial
  | inf s => cases s <;> simp [sqrt, NonNeg]
  | zero s => trivial
  | fin s m e =>
    cases s
    · simp only [sqrt, Bool.false_eq_true, if_false]
      exact round_nonneg _ _ _ _ _
    · simp only [sqrt, if_true]
      trivial

/-- The comparison `mpfr_cmp (a, b) < 0` fails when `a` is not negative and `b` is
not positive. -/
theorem cmp_nonneg_nonpos {a b : Val} (ha : NonNeg a) (hb : NonPositive b) :
    ¬ (cmp a b < 0) := by
  cases a with
  | nan => cases b <;> simp [cmp]
  | inf s =>
    simp only [NonNeg] at ha
    subst ha
    cases b with
    | nan => simp [cmp]
    | inf t => cases t <;> simp [cmp]
    | zero t => simp [cmp]
    | fin t n g => simp [cmp]
  | zero s =>
    cases b with
    | nan => exact absurd hb (by simp [NonPositive])
    | inf t => simp only [NonPositive] at hb; subst hb; simp [cmp]
    | zero t => simp [cmp]
    | fin t n g => simp only [NonPositive] at hb; subst hb; simp [cmp]
  | fin s m e =>
    simp only [NonNeg] at ha
    subst ha
    cases b with
    | nan => simp [cmp]
    | inf t => simp only [NonPositive] at hb; subst hb; simp [cmp]
    | zero t => simp [cmp]
    | fin t n g =>
      simp only [NonPositive] at hb
      subst hb
      simp only [cmp, cmpFin, Bool.false_eq_true, if_false, if_true]
      generalize m <<< (e - min e g).toNat = a
      generalize n <<< (g - min e g).toNat = b
      split_ifs <;> omega

end Mpfr

namespace NewtonSystem

variable {V : Type} (A : Arith V)

/-- In the MPFR arithmetic the norm of a residual is never below a tolerance that
is not positive. -/
theorem norm_not_below_nonpositive (p : Nat) (x : Vec Mpfr.Val) (rnd : mpfr_rnd_t)
    (tol : mpfr_t Mpfr.Val) (h : Mpfr.NonPositive tol.val) :
    ¬ (mpfr_cmp Mpfr.arith (residual_norm_at Mpfr.arith p x rnd) tol < 0) :=
  Mpfr.cmp_nonneg_nonpos (Mpfr.sqrt_nonneg _ _ _) h

/-- When the convergence test can never succeed, the loop returns 0. -/
theorem loop_code_zero (tol : mpfr_t V) (rnd : mpfr_rnd_t)
    (hb : ∀ (p : Nat) (x : Vec V), ¬ (mpfr_cmp A (residual_norm_at A p x rnd) tol < 0))
    {p0 p1 : Nat} (n : Nat) :
    ∀ s : Locals V, Inv p0 p1 s → (loop A tol rnd n s).1 = 0 := by
  induction n with
  | zero => intro s _; rfl
  | succ n ih =>
    intro s h
    unfold loop
    rcases body_cases A tol rnd h with ⟨c, -⟩ | ⟨-, -, t, ht, -⟩ | ⟨-, -, t, ht, hi, -⟩
    · exact absurd c (hb _ _)
    · rw [ht]
    · rw [ht]; exact ih t hi

/-- The passes of a run that never meets its tolerance are the passes of the run
with any tolerance that cannot be met. -/
theorem iterates_other_tolerance (tol tol1 : mpfr_t V) (rnd : mpfr_rnd_t)
    (hb : ∀ (p : Nat) (x : Vec V), ¬ (mpfr_cmp A (residual_norm_at A p x rnd) tol1 < 0))
    {p0 p1 : Nat} (k : Nat) :
    ∀ s t : Locals V, Inv p0 p1 s → iterates A tol rnd k s = some t →
      iterates A tol1 rnd k s = some t := by
  induction k with
  | zero => intro s t _ e; exact e
  | succ k ih =>
    intro s t h e
    unfold iterates at e ⊢
    cases hs : body A tol rnd s with
    | ret c u => rw [hs] at e; cases e
    | next u =>
      rw [hs] at e
      have hi := (body_next_inv A tol rnd h hs).1
      have hn : ¬ (mpfr_cmp A
          (residual_norm A s.norm s.temp (system_f A s.f s.x rnd) rnd).1 tol1 < 0) := by
        rw [norm_of_inv A h]; exact hb _ _
      have hs1 : body A tol1 rnd s = Step.next u := by
        unfold body at hs ⊢
        dsimp only at hs ⊢
        split_ifs at hs with c1 c2
        rw [if_neg hn, if_neg c2]
        exact hs
      rw [hs1]
      exact ih u t hi e

end NewtonSystem

/-! ## The claims -/

/-! ### Claim C1 -/

namespace NewtonSystem

variable {V : Type} (A : Arith V)

/-- C1. If `newton_method_system` returns success, the residual of the point it
leaves in `x`, re-evaluated by `system_f` with its Euclidean norm at the same
precision and rounding mode, is strictly below the tolerance. -/
theorem success_residual_below_tolerance (x guess : Vec V) (tol : mpfr_t V)
    (rnd : mpfr_rnd_t) (xs : Vec V)
    (h : newton_method_system A x guess tol rnd = (1, xs)) :
    mpfr_cmp A (residual_norm_at A (mpfr_get_prec x.1) xs rnd) tol < 0 := by
  obtain ⟨k, u, -, -, -, hc⟩ := success_pass A x guess tol rnd xs h
  exact hc

/-- C1, at the run of `main`: guess `(1.5, 1.5)`, tolerance `1e-25`, 128 bits,
rounding to nearest. -/
theorem success_residual_below_tolerance_main :
    newton_method_system Mpfr.arith Inputs.x_main Inputs.guess_main Inputs.tol_main MPFR_RNDN =
      (1, Inputs.x_star) ∧
    mpfr_cmp Mpfr.arith (residual_norm_at Mpfr.arith 128 Inputs.x_star MPFR_RNDN)
      Inputs.tol_main < 0 :=
  ⟨Inputs.main_run,
   success_residual_below_tolerance Mpfr.arith Inputs.x_main Inputs.guess_main Inputs.tol_main
     MPFR_RNDN Inputs.x_star Inputs.main_run⟩

end NewtonSystem

/-! ### Claim C2 -/

namespace NewtonSystem

variable {V : Type} (A : Arith V)

/-- C2. With every operation exact and a nonzero determinant,
`solve_linear_system_2x2` returns 1 and writes the `delta` of Cramer's rule,
which solves `J * delta = -f`. -/
theorem cramer_solves_exact (K : Type) [Field K] [DecidableEq K] (sqrt abs : K → K)
    (cmp : K → K → Int) (delta : Vec K) (J : Mat K) (f : Vec K) (rnd : mpfr_rnd_t)
    (hdet : J.1.1.val * J.2.2.val - J.1.2.val * J.2.1.val ≠ 0) :
    (solve_linear_system_2x2 (exactArith K sqrt abs cmp) delta J f rnd).1 = 1 ∧
    (solve_linear_system_2x2 (exactArith K sqrt abs cmp) delta J f rnd).2.1.val =
      ((-f.1.val) * J.2.2.val - (-f.2.val) * J.1.2.val) /
        (J.1.1.val * J.2.2.val - J.1.2.val * J.2.1.val) ∧
    (solve_linear_system_2x2 (exactArith K sqrt abs cmp) delta J f rnd).2.2.val =
      (J.1.1.val * (-f.2.val) - J.2.1.val * (-f.1.val)) /
        (J.1.1.val * J.2.2.val - J.1.2.val * J.2.1.val) ∧
    J.1.1.val * (solve_linear_system_2x2 (exactArith K sqrt abs cmp) delta J f rnd).2.1.val +
      J.1.2.val * (solve_linear_system_2x2 (exactArith K sqrt abs cmp) delta J f rnd).2.2.val =
        -f.1.val ∧
    J.2.1.val * (solve_linear_system_2x2 (exactArith K sqrt abs cmp) delta J f rnd).2.1.val +
      J.2.2.val * (solve_linear_system_2x2 (exactArith K sqrt abs cmp) delta J f rnd).2.2.val =
        -f.2.val := by
  have hz : mpfr_zero_p (exactArith K sqrt abs cmp)
      (determinant (exactArith K sqrt abs cmp) J f rnd) = false := by
    simp [mpfr_zero_p, determinant, mpfr_sub, mpfr_mul, exactArith, hdet]
  have hs : solve_linear_system_2x2 (exactArith K sqrt abs cmp) delta J f rnd =
      (1, (⟨delta.1.prec, ((-f.1.val) * J.2.2.val - (-f.2.val) * J.1.2.val) /
              (J.1.1.val * J.2.2.val - J.1.2.val * J.2.1.val)⟩,
           ⟨delta.2.prec, (J.1.1.val * (-f.2.val) - J.2.1.val * (-f.1.val)) /
              (J.1.1.val * J.2.2.val - J.1.2.val * J.2.1.val)⟩)) := by
    unfold solve_linear_system_2x2
    dsimp only
    rw [hz]
    simp [determinant, mpfr_sub, mpfr_mul, mpfr_neg, mpfr_div, exactArith]
  rw [hs]
  refine ⟨rfl, rfl, rfl, ?_, ?_⟩
  · show J.1.1.val * (_ / _) + J.1.2.val * (_ / _) = _
    field_simp
    ring
  · show J.2.1.val * (_ / _) + J.2.2.val * (_ / _) = _
    field_simp
    ring

/-- C2, on the rationals, at the Jacobian and residual of the point `(1.5, 1.5)`. -/
theorem cramer_solves_exact_example :
    Inputs.J_example.1.1.val * Inputs.J_example.2.2.val -
      Inputs.J_example.1.2.val * Inputs.J_example.2.1.val ≠ 0 ∧
    (solve_linear_system_2x2 Inputs.exactRat Inputs.delta_example Inputs.J_example
      Inputs.f_example MPFR_RNDN).1 = 1 ∧
    Inputs.J_example.1.1.val *
        (solve_linear_system_2x2 Inputs.exactRat Inputs.delta_example Inputs.J_example
          Inputs.f_example MPFR_RNDN).2.1.val +
      Inputs.J_example.1.2.val *
        (solve_linear_system_2x2 Inputs.exactRat Inputs.delta_example Inputs.J_example
          Inputs.f_example MPFR_RNDN).2.2.val = -Inputs.f_example.1.val := by
  have hdet : Inputs.J_example.1.1.val * Inputs.J_example.2.2.val -
      Inputs.J_example.1.2.val * Inputs.J_example.2.1.val ≠ 0 := by
    norm_num [Inputs.J_example]
  have h := cramer_solves_exact ℚ (fun a => a) (fun a => |a|)
    (fun a b => if a < b then -1 else if b < a then 1 else 0)
    Inputs.delta_example Inputs.J_example Inputs.f_example MPFR_RNDN hdet
  exact ⟨hdet, h.1, h.2.2.2.1⟩

end NewtonSystem

/-! ### Claim C3 -/

namespace NewtonSystem

variable {V : Type} (A : Arith V)

/-- C3. `solve_linear_system_2x2` returns 0 exactly when the determinant it
computes, `J00*J11 - J01*J10` with each of the three operations rounded to the
precision of `f[0]`, is zero; otherwise it returns 1. No threshold is applied:
with exact operations the failure is exactly `J00*J11 - J01*J10 = 0`, in the MPFR
arithmetic the failure is exactly a computed determinant that is one of the two
zeros, every computed determinant that is a nonzero number gives success, and so
does the nearly singular matrix `[1 1; 1 1 + 2^-127]` of determinant `2^-127`.
On failure `delta` is left unchanged. -/
theorem solve_fails_iff_det_zero :
    (∀ (V : Type) (A : Arith V) (delta : Vec V) (J : Mat V) (f : Vec V) (rnd : mpfr_rnd_t),
      ((solve_linear_system_2x2 A delta J f rnd).1 = 0 ↔
        A.zero_p (A.sub f.1.prec rnd (A.mul f.1.prec rnd J.1.1.val J.2.2.val)
          (A.mul f.1.prec rnd J.1.2.val J.2.1.val)) = true) ∧
      ((solve_linear_system_2x2 A delta J f rnd).1 = 1 ↔
        A.zero_p (A.sub f.1.prec rnd (A.mul f.1.prec rnd J.1.1.val J.2.2.val)
          (A.mul f.1.prec rnd J.1.2.val J.2.1.val)) = false) ∧
      ((solve_linear_system_2x2 A delta J f rnd).1 = 0 →
        (solve_linear_system_2x2 A delta J f rnd).2 = delta)) ∧
    (∀ (K : Type) [Field K] [DecidableEq K] (sqrt abs : K → K) (cmp : K → K → Int)
      (delta : Vec K) (J : Mat K) (f : Vec K) (rnd : mpfr_rnd_t),
      (solve_linear_system_2x2 (exactArith K sqrt abs cmp) delta J f rnd).1 = 0 ↔
        J.1.1.val * J.2.2.val - J.1.2.val * J.2.1.val = 0) ∧
    (∀ (delta : Vec Mpfr.Val) (J : Mat Mpfr.Val) (f : Vec Mpfr.Val) (rnd : mpfr_rnd_t),
      (solve_linear_system_2x2 Mpfr.arith delta J f rnd).1 = 0 ↔
        ∃ s, Mpfr.sub f.1.prec rnd (Mpfr.mul f.1.prec rnd J.1.1.val J.2.2.val)
          (Mpfr.mul f.1.prec rnd J.1.2.val J.2.1.val) = Mpfr.Val.zero s) ∧
    (∀ (delta : Vec Mpfr.Val) (J : Mat Mpfr.Val) (f : Vec Mpfr.Val) (rnd : mpfr_rnd_t)
      (s : Bool) (m : Nat) (e : Int),
      Mpfr.sub f.1.prec rnd (Mpfr.mul f.1.prec rnd J.1.1.val J.2.2.val)
          (Mpfr.mul f.1.prec rnd J.1.2.val J.2.1.val) = Mpfr.Val.fin s m e →
        (solve_linear_system_2x2 Mpfr.arith delta J f rnd).1 = 1) ∧
    (Mpfr.sub 128 MPFR_RNDN
        (Mpfr.mul 128 MPFR_RNDN Inputs.J_near_singular.1.1.val Inputs.J_near_singular.2.2.val)
        (Mpfr.mul 128 MPFR_RNDN Inputs.J_near_singular.1.2.val Inputs.J_near_singular.2.1.val) =
        Mpfr.Val.fin false (2 ^ 127) (-254) ∧
      (solve_linear_system_2x2 Mpfr.arith Inputs.f_ones Inputs.J_near_singular Inputs.f_ones
        MPFR_RNDN).1 = 1) := by
  have key : ∀ (V : Type) (A : Arith V) (delta : Vec V) (J : Mat V) (f : Vec V)
      (rnd : mpfr_rnd_t),
      (solve_linear_system_2x2 A delta J f rnd).1 =
        if A.zero_p (A.sub f.1.prec rnd (A.mul f.1.prec rnd J.1.1.val J.2.2.val)
          (A.mul f.1.prec rnd J.1.2.val J.2.1.val)) = true then 0 else 1 := by
    intro V A delta J f rnd
    rw [solve_fst]
    rfl
  refine ⟨?_, ?_, ?_, ?_, ?_⟩
  · intro V A delta J f rnd
    have hs := key V A delta J f rnd
    refine ⟨?_, ?_, ?_⟩
    · rw [hs]; split_ifs with c <;> simp [c]
    · rw [hs]; split_ifs with c <;> simp [c]
    · intro h0
      have h1 := solve_fst A delta J f rnd
      rw [h0] at h1
      unfold solve_linear_system_2x2
      dsimp only
      split_ifs with c
      · rfl
      · rw [if_neg c] at h1; exact absurd h1 (by decide)
  · intro K _ _ sqrt abs cmp delta J f rnd
    rw [key]
    simp [exactArith]
  · intro delta J f rnd
    rw [key]
    show (if Mpfr.zero_p (Mpfr.sub f.1.prec rnd (Mpfr.mul f.1.prec rnd J.1.1.val J.2.2.val)
        (Mpfr.mul f.1.prec rnd J.1.2.val J.2.1.val)) = true then (0 : Int) else 1) = 0 ↔
      ∃ s, Mpfr.sub f.1.prec rnd (Mpfr.mul f.1.prec rnd J.1.1.val J.2.2.val)
        (Mpfr.mul f.1.prec rnd J.1.2.val J.2.1.val) = Mpfr.Val.zero s
    generalize Mpfr.sub f.1.prec rnd (Mpfr.mul f.1.prec rnd J.1.1.val J.2.2.val)
        (Mpfr.mul f.1.prec rnd J.1.2.val J.2.1.val) = d
    cases d <;> simp [Mpfr.zero_p]
  · intro delta J f rnd s m e h
    rw [key]
    show (if Mpfr.zero_p (Mpfr.sub f.1.prec rnd (Mpfr.mul f.1.prec rnd J.1.1.val J.2.2.val)
        (Mpfr.mul f.1.prec rnd J.1.2.val J.2.1.val)) = true then (0 : Int) else 1) = 1
    rw [h]
    rfl
  · constructor
    · decide!
    · decide!

end NewtonSystem

/-! ### Claim C4 -/

namespace NewtonSystem

variable {V : Type} (A : Arith V)

/-- C4. When a pass is reached (no earlier pass having returned) whose iterate
has a residual norm not below the tolerance and a Jacobian of determinant zero,
`newton_method_system` returns 0 and leaves that iterate in `x`. -/
theorem singular_iterate_fails (x guess : Vec V) (tol : mpfr_t V) (rnd : mpfr_rnd_t)
    (k : Nat) (s : Locals V) (hk : k < MAX_ITER)
    (hi : iterates A tol rnd k (init A x guess rnd) = some s)
    (hn : ¬ (mpfr_cmp A (residual_norm_at A (mpfr_get_prec x.1) s.x rnd) tol < 0))
    (hd : mpfr_zero_p A (det_at A (mpfr_get_prec x.1) s.x rnd) = true) :
    newton_method_system A x guess tol rnd = (0, s.x) :=
  singular_pass_returns A x guess tol rnd k s hk hi hn hd

/-- C4, at the initial guess `(0, 1.5)` with tolerance `1e-25`: the determinant
is zero at iteration 0 and `x` stays `(0, 1.5)`. -/
theorem singular_iterate_fails_at_zero :
    mpfr_zero_p Mpfr.arith (det_at Mpfr.arith 128 Inputs.guess_singular MPFR_RNDN) = true ∧
    newton_method_system Mpfr.arith Inputs.x_main Inputs.guess_singular Inputs.tol_main
      MPFR_RNDN = (0, Inputs.guess_singular) := by
  obtain ⟨h1, h2, h3⟩ := Inputs.singular_run
  refine ⟨h3, ?_⟩
  have h := singular_iterate_fails Mpfr.arith Inputs.x_main Inputs.guess_singular Inputs.tol_main
    MPFR_RNDN 0 _ (by decide) rfl (by rw [h1]; exact h2) (by rw [h1]; exact h3)
  rw [h1] at h
  exact h

end NewtonSystem

/-! ### Claim C5 -/

namespace NewtonSystem

variable {V : Type} (A : Arith V)

/-- C5, as the code has it. The run of `main` (guess `(1.5, 1.5)`, tolerance
`1e-25`, 128 bits, rounding to nearest) returns success, and the point it
returns agrees to five decimals with `(1.51749, 1.30278)`. -/
theorem main_converges_near_solution :
    ∃ xs, newton_method_system Mpfr.arith Inputs.x_main Inputs.guess_main Inputs.tol_main
        MPFR_RNDN = (1, xs) ∧
      Inputs.agrees5 xs.1 (151749 / 100000) ∧ Inputs.agrees5 xs.2 (130278 / 100000) := by
  refine ⟨Inputs.x_star, Inputs.main_run, ⟨_, rfl, ?_⟩, ⟨_, rfl, ?_⟩⟩
  · rw [abs_le]; norm_num
  · rw [abs_le]; norm_num

/-- C5, the claim refuted: the point returned by the run of `main` does not agree
with `(1.27202, 0.61803)` to five decimals. -/
theorem main_not_near_claimed_point :
    ¬ ∃ xs, newton_method_system Mpfr.arith Inputs.x_main Inputs.guess_main Inputs.tol_main
        MPFR_RNDN = (1, xs) ∧
      Inputs.agrees5 xs.1 (127202 / 100000) ∧ Inputs.agrees5 xs.2 (61803 / 100000) := by
  rintro ⟨xs, h, ⟨a, ha, hb⟩, -⟩
  rw [Inputs.main_run] at h
  injection h with _ h
  subst h
  simp only [Inputs.x_star, Mpfr.Val.toRat?, Option.some.injEq] at ha
  subst ha
  rw [abs_le] at hb
  norm_num at hb

end NewtonSystem

/-! ### Claim C6 -/

namespace NewtonSystem

variable {V : Type} (A : Arith V)

/-- C6, as the code has it. A run that ends on a singular Jacobian and a run that
ends on the exhausted budget both return the value 0: the caller can tell a
failure from a success, not one failure from the other. -/
theorem failures_return_zero (x1 g1 : Vec V) (t1 : mpfr_t V) (r1 : mpfr_rnd_t)
    (x2 g2 : Vec V) (t2 : mpfr_t V) (r2 : mpfr_rnd_t)
    (h1 : EndsSingular A x1 g1 t1 r1) (h2 : EndsExhausted A x2 g2 t2 r2) :
    (newton_method_system A x1 g1 t1 r1).1 = 0 ∧ (newton_method_system A x2 g2 t2 r2).1 = 0 := by
  obtain ⟨k, s, hk, hi, hn, hd⟩ := h1
  obtain ⟨u, hu⟩ := h2
  constructor
  · rw [singular_pass_returns A x1 g1 t1 r1 k s hk hi hn hd]
  · unfold newton_method_system run
    rw [loop_of_all A t2 r2 MAX_ITER hu]

/-- C6, the claim refuted: the run from `(0, 1.5)` ends on a singular Jacobian,
the run from `(2^120, 1.5)` ends on the exhausted budget, and both return the
same value. -/
theorem failure_codes_coincide :
    EndsSingular Mpfr.arith Inputs.x_main Inputs.guess_singular Inputs.tol_main MPFR_RNDN ∧
    EndsExhausted Mpfr.arith Inputs.x_main Inputs.guess_far Inputs.tol_main MPFR_RNDN ∧
    (newton_method_system Mpfr.arith Inputs.x_main Inputs.guess_singular Inputs.tol_main
        MPFR_RNDN).1 =
      (newton_method_system Mpfr.arith Inputs.x_main Inputs.guess_far Inputs.tol_main
        MPFR_RNDN).1 := by
  obtain ⟨h1, h2, h3⟩ := Inputs.singular_run
  have hs : EndsSingular Mpfr.arith Inputs.x_main Inputs.guess_singular Inputs.tol_main
      MPFR_RNDN :=
    ⟨0, _, by decide, rfl, by rw [h1]; exact h2, by rw [h1]; exact h3⟩
  have he : EndsExhausted Mpfr.arith Inputs.x_main Inputs.guess_far Inputs.tol_main
      MPFR_RNDN := ⟨_, Inputs.far_run⟩
  refine ⟨hs, he, ?_⟩
  obtain ⟨k, s, hk, hi, hn, hd⟩ := hs
  rw [singular_pass_returns Mpfr.arith _ _ _ _ k s hk hi hn hd]
  unfold newton_method_system run
  rw [loop_of_all Mpfr.arith _ _ MAX_ITER Inputs.far_run]

/-- C6, as the code has it, at the runs from `(0, 1.5)` and from `(2^120, 1.5)`. -/
theorem failures_return_zero_at_runs :
    (newton_method_system Mpfr.arith Inputs.x_main Inputs.guess_singular Inputs.tol_main
        MPFR_RNDN).1 = 0 ∧
    (newton_method_system Mpfr.arith Inputs.x_main Inputs.guess_far Inputs.tol_main
        MPFR_RNDN).1 = 0 :=
  failures_return_zero Mpfr.arith _ _ _ _ _ _ _ _
    ⟨0, _, by decide, rfl, by rw [Inputs.singular_run.1]; exact Inputs.singular_run.2.1,
      by rw [Inputs.singular_run.1]; exact Inputs.singular_run.2.2⟩
    ⟨_, Inputs.far_run⟩

end NewtonSystem

/-! ### Claim C7 -/

namespace NewtonSystem

variable {V : Type} (A : Arith V)

/-- C7, as the code has it. When the budget of `MAX_ITER` passes is exhausted,
`newton_method_system` returns 0 and leaves in `x` the iterate produced by the
update of the last pass, which it has not evaluated: the residual it holds is
that of the iterate before, whose norm was found not below the tolerance. -/
theorem exhausted_leaves_updated_iterate (x guess : Vec V) (tol : mpfr_t V)
    (rnd : mpfr_rnd_t) (s : Locals V)
    (h : iterates A tol rnd MAX_ITER (init A x guess rnd) = some s) :
    run A x guess tol rnd = (0, s) ∧
    newton_method_system A x guess tol rnd = (0, s.x) ∧
    ∃ u, iterates A tol rnd (MAX_ITER - 1) (init A x guess rnd) = some u ∧
      s.f = residual_at A (mpfr_get_prec x.1) u.x rnd ∧
      ¬ (mpfr_cmp A (residual_norm_at A (mpfr_get_prec x.1) u.x rnd) tol < 0) ∧
      s.x = (mpfr_add A u.x.1 u.x.1 s.delta.1 rnd, mpfr_add A u.x.2 u.x.2 s.delta.2 rnd) := by
  have hl := loop_of_all A tol rnd MAX_ITER h
  refine ⟨hl, ?_, ?_⟩
  · unfold newton_method_system run
    rw [hl]
  · obtain ⟨u, hu, hb⟩ := iterates_succ A tol rnd (MAX_ITER - 1) h
    have hinv := iterates_inv A tol rnd _ (init_inv A x guess rnd) hu
    obtain ⟨-, c, hf, hx⟩ := body_next_inv A tol rnd hinv hb
    exact ⟨u, hu, hf, c, hx⟩

/-- C7, the claim refuted: the run from `(2^120, 1.5)` exhausts the budget and
the residual it holds at the end is not the residual of the point it leaves in
`x`. -/
theorem exhausted_residual_is_stale :
    ∃ s, iterates Mpfr.arith Inputs.tol_main MPFR_RNDN MAX_ITER
        (init Mpfr.arith Inputs.x_main Inputs.guess_far MPFR_RNDN) = some s ∧
      run Mpfr.arith Inputs.x_main Inputs.guess_far Inputs.tol_main MPFR_RNDN = (0, s) ∧
      s.f ≠ system_f Mpfr.arith s.f s.x MPFR_RNDN :=
  ⟨Inputs.far_final, Inputs.far_run, loop_of_all Mpfr.arith _ _ MAX_ITER Inputs.far_run,
    by decide!⟩

/-- C7, as the code has it, at the run from `(2^120, 1.5)`. -/
theorem exhausted_leaves_updated_iterate_far :
    newton_method_system Mpfr.arith Inputs.x_main Inputs.guess_far Inputs.tol_main MPFR_RNDN =
      (0, Inputs.far_final.x) :=
  (exhausted_leaves_updated_iterate Mpfr.arith Inputs.x_main Inputs.guess_far Inputs.tol_main
    MPFR_RNDN Inputs.far_final Inputs.far_run).2.1

end NewtonSystem

/-! ### Claim C8 -/

namespace NewtonSystem

variable {V : Type} (A : Arith V)

/-- C8. With every operation exact on the reals, the matrix written by `jacobian`
is `[2x 2y; 2x -1]`, and each entry is the partial derivative of the
corresponding component of the residual computed by `system_f`. -/
theorem jacobian_is_derivative_of_system_f (sqrt abs : ℝ → ℝ) (cmp : ℝ → ℝ → Int)
    (J : Mat ℝ) (f : Vec ℝ) (x y : mpfr_t ℝ) (rnd : mpfr_rnd_t) :
    (jacobian (exactArith ℝ sqrt abs cmp) J (x, y) rnd).1.1.val = 2 * x.val ∧
    (jacobian (exactArith ℝ sqrt abs cmp) J (x, y) rnd).1.2.val = 2 * y.val ∧
    (jacobian (exactArith ℝ sqrt abs cmp) J (x, y) rnd).2.1.val = 2 * x.val ∧
    (jacobian (exactArith ℝ sqrt abs cmp) J (x, y) rnd).2.2.val = -1 ∧
    (∀ u v : ℝ, (system_f (exactArith ℝ sqrt abs cmp) f (⟨x.prec, u⟩, ⟨y.prec, v⟩) rnd).1.val =
        u ^ 2 + v ^ 2 - 4 ∧
      (system_f (exactArith ℝ sqrt abs cmp) f (⟨x.prec, u⟩, ⟨y.prec, v⟩) rnd).2.val =
        u ^ 2 - v - 1) ∧
    HasDerivAt
      (fun u : ℝ => (system_f (exactArith ℝ sqrt abs cmp) f (⟨x.prec, u⟩, y) rnd).1.val)
      (jacobian (exactArith ℝ sqrt abs cmp) J (x, y) rnd).1.1.val x.val ∧
    HasDerivAt
      (fun v : ℝ => (system_f (exactArith ℝ sqrt abs cmp) f (x, ⟨y.prec, v⟩) rnd).1.val)
      (jacobian (exactArith ℝ sqrt abs cmp) J (x, y) rnd).1.2.val y.val ∧
    HasDerivAt
      (fun u : ℝ => (system_f (exactArith ℝ sqrt abs cmp) f (⟨x.prec, u⟩, y) rnd).2.val)
      (jacobian (exactArith ℝ sqrt abs cmp) J (x, y) rnd).2.1.val x.val ∧
    HasDerivAt
      (fun v : ℝ => (system_f (exactArith ℝ sqrt abs cmp) f (x, ⟨y.prec, v⟩) rnd).2.val)
      (jacobian (exactArith ℝ sqrt abs cmp) J (x, y) rnd).2.2.val y.val := by
  have e1 : ∀ u v : mpfr_t ℝ, (system_f (exactArith ℝ sqrt abs cmp) f (u, v) rnd).1.val =
      u.val * u.val + v.val * v.val - 4 := by
    intro u v
    simp [system_f, mpfr_mul, mpfr_add, mpfr_sub_ui, exactArith]
  have e2 : ∀ u v : mpfr_t ℝ, (system_f (exactArith ℝ sqrt abs cmp) f (u, v) rnd).2.val =
      u.val * u.val - v.val - 1 := by
    intro u v
    simp [system_f, mpfr_mul, mpfr_sub, mpfr_sub_ui, exactArith]
  have j : (jacobian (exactArith ℝ sqrt abs cmp) J (x, y) rnd).1.1.val = 2 * x.val ∧
      (jacobian (exactArith ℝ sqrt abs cmp) J (x, y) rnd).1.2.val = 2 * y.val ∧
      (jacobian (exactArith ℝ sqrt abs cmp) J (x, y) rnd).2.1.val = 2 * x.val ∧
      (jacobian (exactArith ℝ sqrt abs cmp) J (x, y) rnd).2.2.val = -1 := by
    simp [jacobian, mpfr_mul_ui, mpfr_set_si, exactArith, mul_comm]
  obtain ⟨j1, j2, j3, j4⟩ := j
  refine ⟨j1, j2, j3, j4, ?_, ?_, ?_, ?_, ?_⟩
  · intro u v
    rw [e1, e2]
    constructor <;> ring
  · simp only [e1, j1]
    have h := (((hasDerivAt_id x.val).mul (hasDerivAt_id x.val)).add_const
      (y.val * y.val)).sub_const 4
    convert h using 1
    simp; ring
  · simp only [e1, j2]
    have h := (((hasDerivAt_id y.val).mul (hasDerivAt_id y.val)).const_add
      (x.val * x.val)).sub_const 4
    convert h using 1
    simp; ring
  · simp only [e2, j3]
    have h := (((hasDerivAt_id x.val).mul (hasDerivAt_id x.val)).sub_const y.val).sub_const 1
    convert h using 1
    simp; ring
  · simp only [e2, j4]
    have h := (((hasDerivAt_id y.val).neg).const_add (x.val * x.val)).sub_const 1
    convert h using 1

end NewtonSystem

/-! ### Claim C9 -/

namespace NewtonSystem

variable {V : Type} (A : Arith V)

/-- C9. When `newton_method_system` returns success with the point `xs`, a second
call with `xs` as the initial guess (same tolerance, rounding mode and
precisions) returns success at iteration 0, without any update, and leaves the
same point `xs`. -/
theorem rerun_from_solution (x guess : Vec Mpfr.Val) (tol : mpfr_t Mpfr.Val)
    (rnd : mpfr_rnd_t) (xs : Vec Mpfr.Val) (h0 : 0 < x.1.prec) (h1 : 0 < x.2.prec)
    (h : newton_method_system Mpfr.arith x guess tol rnd = (1, xs))
    (x1 : Vec Mpfr.Val) (e0 : x1.1.prec = x.1.prec) (e1 : x1.2.prec = x.2.prec) :
    newton_method_system Mpfr.arith x1 xs tol rnd = (1, xs) ∧
    (init Mpfr.arith x1 xs rnd).x = xs ∧
    ∃ t, body Mpfr.arith tol rnd (init Mpfr.arith x1 xs rnd) = Step.ret 1 t ∧ t.x = xs :=
  rerun_of_exactCopy Mpfr.arith Mpfr.arith_exactCopy x guess tol rnd xs h0 h1 h x1 e0 e1

/-- C9, at the run of `main`: called again from the point it returned, the
solver succeeds at iteration 0 and returns the same point. -/
theorem rerun_from_solution_main :
    newton_method_system Mpfr.arith Inputs.x_main Inputs.guess_main Inputs.tol_main MPFR_RNDN =
      (1, Inputs.x_star) ∧
    newton_method_system Mpfr.arith Inputs.x_main Inputs.x_star Inputs.tol_main MPFR_RNDN =
      (1, Inputs.x_star) :=
  ⟨Inputs.main_run,
   (rerun_from_solution Inputs.x_main Inputs.guess_main Inputs.tol_main MPFR_RNDN
     Inputs.x_star (by decide) (by decide) Inputs.main_run Inputs.x_main rfl rfl).1⟩

end NewtonSystem

/-! ### Claim C10 -/

/-- C10. If `newton_method_single` returns success, the root `r` it writes has
`|f(r)|`, evaluated by `function_f` at the same precision and rounding mode,
strictly below the tolerance; and the run of `main` (guess 2, tolerance `1e-30`,
128 bits, rounding to nearest) returns success. -/
theorem single_root_residual_below_tolerance :
    (∀ (root guess tol : mpfr_t Mpfr.Val) (rnd : mpfr_rnd_t) (r : mpfr_t Mpfr.Val),
      0 < root.prec →
      NewtonSingle.newton_method_single Mpfr.arith root guess tol rnd = (1, r) →
      mpfr_cmp Mpfr.arith
        (NewtonSingle.abs_residual_at Mpfr.arith (mpfr_get_prec root) r rnd) tol < 0) ∧
    (NewtonSingle.newton_method_single Mpfr.arith Inputs.root_main Inputs.guess_single
      Inputs.tol_single MPFR_RNDN).1 = 1 := by
  constructor
  · intro root guess tol rnd r hp h
    exact single_success_of_exactCopy Mpfr.arith Mpfr.arith_exactCopy root guess tol rnd r hp h
  · rw [Inputs.single_run]

/-- C10, at the run of `main`: the root written has `|f(r)|` below `1e-30`. -/
theorem single_root_residual_below_tolerance_main :
    NewtonSingle.newton_method_single Mpfr.arith Inputs.root_main Inputs.guess_single
      Inputs.tol_single MPFR_RNDN = (1, Inputs.root_star) ∧
    mpfr_cmp Mpfr.arith (NewtonSingle.abs_residual_at Mpfr.arith 128 Inputs.root_star MPFR_RNDN)
      Inputs.tol_single < 0 :=
  ⟨Inputs.single_run,
   single_root_residual_below_tolerance.1 Inputs.root_main Inputs.guess_single
     Inputs.tol_single MPFR_RNDN Inputs.root_star (by decide) Inputs.single_run⟩

/-! ### Claim C11 -/

namespace NewtonSystem

/-- C11, as the code has it. With a tolerance that is not positive
`newton_method_system` returns failure for every initial guess, but it does not
reject the call before the iteration: it runs the loop, and unless the Jacobian
at the initial guess has determinant zero its first pass applies the Newton
update to `x`. -/
theorem nonpositive_tolerance_fails_after_iterating (x guess : Vec Mpfr.Val)
    (tol : mpfr_t Mpfr.Val) (rnd : mpfr_rnd_t) (h : Mpfr.NonPositive tol.val) :
    (newton_method_system Mpfr.arith x guess tol rnd).1 = 0 ∧
    (mpfr_zero_p Mpfr.arith
        (det_at Mpfr.arith (mpfr_get_prec x.1) (init Mpfr.arith x guess rnd).x rnd) = false →
      ∃ s, iterates Mpfr.arith tol rnd 1 (init Mpfr.arith x guess rnd) = some s ∧
        s.x = (mpfr_add Mpfr.arith (init Mpfr.arith x guess rnd).x.1
                 (init Mpfr.arith x guess rnd).x.1 s.delta.1 rnd,
               mpfr_add Mpfr.arith (init Mpfr.arith x guess rnd).x.2
                 (init Mpfr.arith x guess rnd).x.2 s.delta.2 rnd)) := by
  have hb : ∀ (p : Nat) (y : Vec Mpfr.Val),
      ¬ (mpfr_cmp Mpfr.arith (residual_norm_at Mpfr.arith p y rnd) tol < 0) :=
    fun p y => norm_not_below_nonpositive p y rnd tol h
  have hinv := init_inv Mpfr.arith x guess rnd
  constructor
  · exact loop_code_zero Mpfr.arith tol rnd hb MAX_ITER _ hinv
  · intro hd
    unfold mpfr_get_prec at hd
    rcases body_cases Mpfr.arith tol rnd hinv with ⟨c, -⟩ | ⟨-, c, -⟩ | ⟨-, -, t, ht, -, -, hx⟩
    · exact absurd c (hb _ _)
    · rw [hd] at c; cases c
    · refine ⟨t, ?_, hx⟩
      unfold iterates
      rw [ht]
      rfl

/-- C11, the claim refuted: with tolerance zero the run from `(2^120, 1.5)` is not
rejected; it returns 0 after its 100 updates and the point it leaves in `x` is
not the initial guess. -/
theorem zero_tolerance_run_updates :
    Mpfr.NonPositive Inputs.tol_zero.val ∧
    newton_method_system Mpfr.arith Inputs.x_main Inputs.guess_far Inputs.tol_zero MPFR_RNDN =
      (0, Inputs.far_final.x) ∧
    Inputs.far_final.x ≠ Inputs.guess_far := by
  have hz : Mpfr.NonPositive Inputs.tol_zero.val := trivial
  refine ⟨hz, ?_, by decide⟩
  have hi := iterates_other_tolerance Mpfr.arith Inputs.tol_main Inputs.tol_zero MPFR_RNDN
    (fun p y => norm_not_below_nonpositive p y MPFR_RNDN Inputs.tol_zero hz) MAX_ITER _ _
    (init_inv Mpfr.arith Inputs.x_main Inputs.guess_far MPFR_RNDN) Inputs.far_run
  unfold newton_method_system run
  rw [loop_of_all Mpfr.arith _ _ MAX_ITER hi]

/-- C11, as the code has it, at the guess `(1.5, 1.5)` of `main` with tolerance
zero: the run returns 0 and its first pass has moved `x`. -/
theorem nonpositive_tolerance_fails_after_iterating_main :
    (newton_method_system Mpfr.arith Inputs.x_main Inputs.guess_main Inputs.tol_zero
      MPFR_RNDN).1 = 0 ∧
    ∃ s, iterates Mpfr.arith Inputs.tol_zero MPFR_RNDN 1
        (init Mpfr.arith Inputs.x_main Inputs.guess_main MPFR_RNDN) = some s ∧
      s.x ≠ Inputs.guess_main := by
  have h := nonpositive_tolerance_fails_after_iterating Inputs.x_main Inputs.guess_main
    Inputs.tol_zero MPFR_RNDN trivial
  refine ⟨h.1, ?_⟩
  obtain ⟨s, hs, hx⟩ := h.2 (by decide!)
  refine ⟨s, hs, ?_⟩
  have e : ∀ u, iterates Mpfr.arith Inputs.tol_zero MPFR_RNDN 1
      (init Mpfr.arith Inputs.x_main Inputs.guess_main MPFR_RNDN) = some u →
        u.x ≠ Inputs.guess_main := by
    decide!
  exact e s hs

end NewtonSystem
